import Mathlib

/-!
Verification of the UV-unwrapping core (topology, seam selection, island
extraction, LSCM setup, packing, metrics) against its specification.

Modelling conventions (shallow embedding of the C/C++ sources):
* machine floating-point scalars (`float`/`double`) are modelled as exact
  rationals `ℚ`; all statements are about the exact-arithmetic semantics of
  the code, rounding is out of scope;
* `sqrtf`/`sqrt` is modelled by `ratSqrt`, which is exact on perfect squares
  (every concrete input evaluated in this development is one); comparisons of
  two square roots of nonnegative numbers are modelled by comparisons of the
  radicands, which agree with the source because the real square root is
  strictly monotone;
* C arrays are modelled as `List`s (reads via `getD`, writes via `set`);
  the global UV buffer, which is only ever written at vertex indices, is
  modelled as a function `ℕ → ℚ × ℚ`;
* `std::map` is modelled as an association list kept sorted by key,
  `std::set` iteration as an ascending filter;
* a null pointer argument is modelled as `none` in an `Option`-typed wrapper
  around the corresponding function;
* Eigen's `SparseLU` is modelled by exact Gaussian elimination, which fails
  (returns `none`) exactly on singular systems, matching the specification's
  description of solver failure as singular factorization.
-/

set_option maxRecDepth 4000

/-- Rational square root, exact on perfect squares (and `0` elsewhere).
Every concrete input this development evaluates it on is a perfect square. -/
def ratSqrt (x : ℚ) : ℚ :=
  if x < 0 then 0
  else
    let n := x.num.toNat.sqrt
    let d := x.den.sqrt
    if (n * n : ℤ) = x.num ∧ d * d = x.den then (n : ℚ) / (d : ℚ) else 0

/-- 3D vector (`Vec3` in math_utils.h). -/
structure Vec3 where
  x : ℚ
  y : ℚ
  z : ℚ
deriving DecidableEq, Repr

def vec3_add (a b : Vec3) : Vec3 := ⟨a.x + b.x, a.y + b.y, a.z + b.z⟩

def vec3_sub (a b : Vec3) : Vec3 := ⟨a.x - b.x, a.y - b.y, a.z - b.z⟩

def vec3_scale (v : Vec3) (s : ℚ) : Vec3 := ⟨v.x * s, v.y * s, v.z * s⟩

def vec3_dot (a b : Vec3) : ℚ := a.x * b.x + a.y * b.y + a.z * b.z

def vec3_cross (a b : Vec3) : Vec3 :=
  ⟨a.y * b.z - a.z * b.y, a.z * b.x - a.x * b.z, a.x * b.y - a.y * b.x⟩

/-- Length of a 3D vector (`vec3_length`); exact on perfect-square radicands. -/
def vec3_length (v : Vec3) : ℚ := ratSqrt (vec3_dot v v)

/-- Squared distance between two points; used to model the source's
comparisons of `vec3_length` values (monotonicity of the square root). -/
def sqDist (a b : Vec3) : ℚ := vec3_dot (vec3_sub a b) (vec3_sub a b)

/-- `vec3_normalize` (math_utils, staged in include/topology.h): return the
zero vector for degenerate input, otherwise scale by 1/len.  The source's
cutoff is `len < 1e-8`; over the exact rationals the model tests the squared
length against zero — the radicand is available exactly, whereas the float
cutoff has no exact counterpart once the square root is irrational.  At
every concrete input evaluated in this file the two conditions agree. -/
def vec3_normalize (v : Vec3) : Vec3 :=
  if vec3_dot v v = 0 then ⟨0, 0, 0⟩ else vec3_scale v (1 / vec3_length v)

/-- Triangle mesh (mesh.h): vertex positions, vertex-index triples, and an
optional UV buffer (`uvs` may be a null pointer, hence the `Option`). -/
structure Mesh where
  vertices : List Vec3
  triangles : List (ℕ × ℕ × ℕ)
  uvs : Option (ℕ → ℚ × ℚ)

def get_vertex_position (mesh : Mesh) (i : ℕ) : Vec3 :=
  mesh.vertices.getD i ⟨0, 0, 0⟩

/-- Unwrapping parameters (unwrap.h). `min_island_faces` is compared against
a `size_t` in the source, so it is modelled as a natural number. -/
structure UnwrapParams where
  angle_threshold : ℚ
  min_island_faces : ℕ
  pack_islands : Bool
  island_margin : ℚ

/-- Unwrapping result metadata (unwrap.h). -/
structure UnwrapResult where
  num_islands : ℤ
  face_island_ids : List ℤ
  avg_stretch : ℚ
  max_stretch : ℚ
  coverage : ℚ

/-! ## Topology (topology.cpp) -/

/-- Canonicalized edge: the smaller vertex first (struct `Edge`). -/
def canonEdge (a b : ℕ) : ℕ × ℕ := if a < b then (a, b) else (b, a)

/-- Strict ordering on canonical edges (`Edge::operator<`). -/
def edgeLt (e f : ℕ × ℕ) : Prop := e.1 < f.1 ∨ (e.1 = f.1 ∧ e.2 < f.2)

instance : DecidableRel edgeLt := fun e f => by
  unfold edgeLt; infer_instance

/-- Adjacent-face record for one edge (struct `EdgeInfo`), `-1` = unset. -/
structure EdgeInfo where
  face0 : ℤ
  face1 : ℤ
deriving DecidableEq, Repr

/-- Insertion into the `std::map⟨Edge, EdgeInfo⟩`, modelled as a sorted
association list: `edge_map[e]` default-constructs `(-1,-1)` and the loop
body sets `face0` on the first encounter and `face1` on the second; later
encounters leave the record unchanged (non-manifold, keep the first two). -/
def insertEdgeFace : List ((ℕ × ℕ) × EdgeInfo) → (ℕ × ℕ) → ℤ → List ((ℕ × ℕ) × EdgeInfo)
  | [], e, tri => [(e, ⟨tri, -1⟩)]
  | (k, info) :: rest, e, tri =>
    if e = k then
      (k, if info.face0 = -1 then ⟨tri, info.face1⟩
          else if info.face1 = -1 then ⟨info.face0, tri⟩
          else info) :: rest
    else if edgeLt e k then (e, ⟨tri, -1⟩) :: (k, info) :: rest
    else (k, info) :: insertEdgeFace rest e tri

/-- Canonicalized edges of one triangle, in the emission order of the
source: (v0,v1), (v1,v2), (v2,v0). -/
def triEdges (t : ℕ × ℕ × ℕ) : List (ℕ × ℕ) :=
  [canonEdge t.1 t.2.1, canonEdge t.2.1 t.2.2, canonEdge t.2.2 t.1]

/-- Emission stream of `build_topology`: every canonical edge of every
triangle, paired with its face index, in program order. -/
def emissions (tris : List (ℕ × ℕ × ℕ)) : List ((ℕ × ℕ) × ℤ) :=
  tris.enum.flatMap fun it => (triEdges it.2).map fun e => (e, (it.1 : ℤ))

/-- Folding the whole emission stream through the map insertions. -/
def edgeMapOf (tris : List (ℕ × ℕ × ℕ)) : List ((ℕ × ℕ) × EdgeInfo) :=
  (emissions tris).foldl (fun m em => insertEdgeFace m em.1 em.2) []

/-- Edge table (TopologyInfo in topology.h). -/
structure TopologyInfo where
  edges : List (ℕ × ℕ)
  edgeFaces : List (ℤ × ℤ)
deriving Repr

/-- The core of `build_topology`: run the per-triangle edge insertions, then
read the final arrays out of the map in ascending key order. -/
def build_topology (mesh : Mesh) : TopologyInfo :=
  let m := edgeMapOf mesh.triangles
  { edges := m.map (·.1)
    edgeFaces := m.map fun p => (p.2.face0, p.2.face1) }

/-- Null-pointer wrapper for `build_topology` (the source returns NULL only
for a null mesh). -/
def build_topology_c (mesh : Option Mesh) : Option TopologyInfo :=
  mesh.map build_topology

/-! ## Characterization of the edge map (towards claim C7) -/

/-- Lookup in the association list modelling `std::map::find`. -/
def findInfo : List ((ℕ × ℕ) × EdgeInfo) → (ℕ × ℕ) → Option EdgeInfo
  | [], _ => none
  | (k, i) :: rest, e => if e = k then some i else findInfo rest e

/-- Faces of all emissions of a given canonical edge, in program order. -/
def occFaces (L : List ((ℕ × ℕ) × ℤ)) (e : ℕ × ℕ) : List ℤ :=
  (L.filter (fun p => p.1 = e)).map (·.2)

/-- The `EdgeInfo` that the occurrence list prescribes: first occurrence is
`face0`, second (if any) is `face1`, else `-1`. -/
def occInfo : List ℤ → Option EdgeInfo
  | [] => none
  | f :: rest => some ⟨f, rest.headD (-1)⟩

theorem occFaces_append (L₁ L₂ : List ((ℕ × ℕ) × ℤ)) (e : ℕ × ℕ) :
    occFaces (L₁ ++ L₂) e = occFaces L₁ e ++ occFaces L₂ e := by
  simp [occFaces, List.filter_append]

theorem occFaces_singleton (p : (ℕ × ℕ) × ℤ) (e : ℕ × ℕ) :
    occFaces [p] e = if p.1 = e then [p.2] else [] := by
  simp only [occFaces, List.filter]
  split <;> simp_all

theorem occFaces_nonneg {L : List ((ℕ × ℕ) × ℤ)} (h : ∀ p ∈ L, 0 ≤ p.2)
    {e : ℕ × ℕ} {x : ℤ} (hx : x ∈ occFaces L e) : 0 ≤ x := by
  simp only [occFaces, List.mem_map, List.mem_filter] at hx
  obtain ⟨p, ⟨hp, _⟩, rfl⟩ := hx
  exact h p hp

theorem findInfo_insertEdgeFace_ne (m : List ((ℕ × ℕ) × EdgeInfo)) (e k : ℕ × ℕ)
    (t : ℤ) (hne : k ≠ e) :
    findInfo (insertEdgeFace m e t) k = findInfo m k := by
  induction m with
  | nil => simp [insertEdgeFace, findInfo, hne]
  | cons p rest ih =>
    obtain ⟨k0, i0⟩ := p
    by_cases h1 : e = k0
    · subst h1
      simp only [insertEdgeFace, if_pos rfl, findInfo, if_neg hne]
    · simp only [insertEdgeFace, if_neg h1]
      by_cases h2 : edgeLt e k0
      · simp [h2, findInfo, hne]
      · simp only [if_neg h2, findInfo]
        by_cases h3 : k = k0
        · simp [h3]
        · simp [h3, ih]

theorem findInfo_insertEdgeFace_none (m : List ((ℕ × ℕ) × EdgeInfo)) (e : ℕ × ℕ)
    (t : ℤ) (h : findInfo m e = none) :
    findInfo (insertEdgeFace m e t) e = some ⟨t, -1⟩ := by
  induction m with
  | nil => simp [insertEdgeFace, findInfo]
  | cons p rest ih =>
    obtain ⟨k0, i0⟩ := p
    simp only [findInfo] at h
    by_cases h1 : e = k0
    · simp [h1] at h
    · simp only [if_neg h1] at h
      simp only [insertEdgeFace, if_neg h1]
      by_cases h2 : edgeLt e k0
      · simp [h2, findInfo]
      · simp [h2, findInfo, h1, ih h]

theorem edgeLt_asymm {a b : ℕ × ℕ} (h : edgeLt a b) : ¬ edgeLt b a := by
  unfold edgeLt at *; omega

theorem edgeLt_trans {a b c : ℕ × ℕ} (h1 : edgeLt a b) (h2 : edgeLt b c) :
    edgeLt a c := by
  unfold edgeLt at *; omega

theorem edgeLt_of_ne_of_not_lt {a b : ℕ × ℕ} (h1 : ¬ a = b) (h2 : ¬ edgeLt a b) :
    edgeLt b a := by
  unfold edgeLt at *
  rcases a with ⟨a1, a2⟩
  rcases b with ⟨b1, b2⟩
  simp only [Prod.mk.injEq] at h1
  simp only [] at *
  omega

theorem findInfo_some_mem {m : List ((ℕ × ℕ) × EdgeInfo)} {e : ℕ × ℕ} {i : EdgeInfo}
    (h : findInfo m e = some i) : e ∈ m.map (·.1) := by
  induction m with
  | nil => simp [findInfo] at h
  | cons p rest ih =>
    obtain ⟨k0, i0⟩ := p
    simp only [findInfo] at h
    by_cases h1 : e = k0
    · simp [h1]
    · simp only [if_neg h1] at h
      simp [ih h]

theorem findInfo_insertEdgeFace_found (m : List ((ℕ × ℕ) × EdgeInfo)) (e : ℕ × ℕ)
    (t : ℤ) (i : EdgeInfo) (hs : List.Sorted edgeLt (m.map (·.1)))
    (h : findInfo m e = some i) :
    findInfo (insertEdgeFace m e t) e =
      some (if i.face0 = -1 then ⟨t, i.face1⟩
            else if i.face1 = -1 then ⟨i.face0, t⟩
            else i) := by
  induction m with
  | nil => simp [findInfo] at h
  | cons p rest ih =>
    obtain ⟨k0, i0⟩ := p
    simp only [findInfo] at h
    simp only [List.map_cons, List.sorted_cons] at hs
    by_cases h1 : e = k0
    · subst h1
      simp only [if_pos rfl] at h
      cases h
      simp [insertEdgeFace, findInfo]
    · simp only [if_neg h1] at h
      simp only [insertEdgeFace, if_neg h1]
      have hmem : e ∈ rest.map (·.1) := findInfo_some_mem h
      have hk0e : edgeLt k0 e := hs.1 e hmem
      have h2 : ¬ edgeLt e k0 := edgeLt_asymm hk0e
      simp [h2, findInfo, h1, ih hs.2 h]

/-- Invariant tying the map to the processed emission prefix. -/
def MapInv (L : List ((ℕ × ℕ) × ℤ)) (m : List ((ℕ × ℕ) × EdgeInfo)) : Prop :=
  ∀ e, findInfo m e = occInfo (occFaces L e)

theorem mapInv_nil : MapInv [] [] := by
  intro e
  simp [findInfo, occFaces, occInfo]

theorem mem_keys_insertEdgeFace {m : List ((ℕ × ℕ) × EdgeInfo)} {e b : ℕ × ℕ} {t : ℤ}
    (hb : b ∈ (insertEdgeFace m e t).map (·.1)) : b = e ∨ b ∈ m.map (·.1) := by
  induction m with
  | nil =>
    simp only [insertEdgeFace, List.map_cons, List.map_nil, List.mem_singleton] at hb
    exact Or.inl hb
  | cons p rest ih =>
    obtain ⟨k0, i0⟩ := p
    by_cases h1 : e = k0
    · simp only [insertEdgeFace, if_pos h1, List.map_cons] at hb
      exact Or.inr hb
    · simp only [insertEdgeFace, if_neg h1] at hb
      by_cases h2 : edgeLt e k0
      · simp only [if_pos h2, List.map_cons, List.mem_cons] at hb
        rcases hb with rfl | hb
        · exact Or.inl rfl
        · exact Or.inr (by simpa using hb)
      · simp only [if_neg h2, List.map_cons, List.mem_cons] at hb
        rcases hb with rfl | hb
        · exact Or.inr (by simp)
        · rcases ih hb with h | h
          · exact Or.inl h
          · exact Or.inr (by simp [h])

/-- Insertion preserves sortedness of the key list. -/
theorem sorted_insertEdgeFace (m : List ((ℕ × ℕ) × EdgeInfo)) (e : ℕ × ℕ) (t : ℤ)
    (hs : List.Sorted edgeLt (m.map (·.1))) :
    List.Sorted edgeLt ((insertEdgeFace m e t).map (·.1)) := by
  induction m with
  | nil => simp [insertEdgeFace]
  | cons p rest ih =>
    obtain ⟨k0, i0⟩ := p
    simp only [List.map_cons, List.sorted_cons] at hs
    by_cases h1 : e = k0
    · simp only [insertEdgeFace, if_pos h1, List.map_cons, List.sorted_cons]
      exact ⟨hs.1, hs.2⟩
    · simp only [insertEdgeFace, if_neg h1]
      by_cases h2 : edgeLt e k0
      · simp only [if_pos h2, List.map_cons, List.sorted_cons]
        refine ⟨?_, hs.1, hs.2⟩
        intro b hb
        rcases List.mem_cons.mp hb with rfl | hb2
        · exact h2
        · exact edgeLt_trans h2 (hs.1 b hb2)
      · simp only [if_neg h2, List.map_cons, List.sorted_cons]
        refine ⟨?_, ih hs.2⟩
        intro b hb
        have hk0e : edgeLt k0 e := edgeLt_of_ne_of_not_lt h1 h2
        rcases mem_keys_insertEdgeFace hb with rfl | hbm
        · exact hk0e
        · exact hs.1 b hbm

theorem mapInv_step {L : List ((ℕ × ℕ) × ℤ)} {m : List ((ℕ × ℕ) × EdgeInfo)}
    (hinv : MapInv L m) (hL : ∀ p ∈ L, 0 ≤ p.2)
    (hsort : List.Sorted edgeLt (m.map (·.1))) (e : ℕ × ℕ) (t : ℤ) :
    MapInv (L ++ [(e, t)]) (insertEdgeFace m e t) := by
  intro k
  rw [occFaces_append]
  rcases eq_or_ne k e with rfl | hne
  · rw [occFaces_singleton]
    simp only [if_pos rfl]
    have h := hinv k
    cases hocc : occFaces L k with
    | nil =>
      rw [hocc] at h
      simp only [occInfo] at h
      rw [findInfo_insertEdgeFace_none m k t h]
      simp [occInfo]
    | cons f rest =>
      rw [hocc] at h
      simp only [occInfo] at h
      rw [findInfo_insertEdgeFace_found m k t _ hsort h]
      have hf : 0 ≤ f := occFaces_nonneg hL (hocc ▸ List.mem_cons_self f rest)
      have hf' : ¬((f : ℤ) = -1) := by omega
      cases rest with
      | nil => simp [occInfo, hf']
      | cons r rs =>
        have hr : 0 ≤ r := occFaces_nonneg hL (by rw [hocc]; simp)
        have hr' : ¬((r : ℤ) = -1) := by omega
        simp [occInfo, hf', hr']
  · rw [occFaces_singleton]
    have hne' : ¬(e = k) := fun h => hne h.symm
    simp only [if_neg hne', List.append_nil]
    rw [findInfo_insertEdgeFace_ne m e k t hne]
    exact hinv k

theorem edgeLt_irrefl (a : ℕ × ℕ) : ¬ edgeLt a a := by
  unfold edgeLt; omega

theorem emissions_nonneg (tris : List (ℕ × ℕ × ℕ)) :
    ∀ p ∈ emissions tris, 0 ≤ p.2 := by
  intro p hp
  simp only [emissions, List.mem_flatMap, List.mem_map] at hp
  obtain ⟨it, _, e, _, rfl⟩ := hp
  exact Int.ofNat_nonneg it.1

/-- The fold of any nonnegative emission stream yields a sorted map
satisfying the occurrence invariant. -/
theorem foldMap_spec (L : List ((ℕ × ℕ) × ℤ)) (hL : ∀ p ∈ L, 0 ≤ p.2) :
    MapInv L (L.foldl (fun m em => insertEdgeFace m em.1 em.2) []) ∧
    List.Sorted edgeLt ((L.foldl (fun m em => insertEdgeFace m em.1 em.2) []).map (·.1)) := by
  induction L using List.reverseRecOn with
  | nil => exact ⟨mapInv_nil, by simp⟩
  | append_singleton l p ih =>
    have hl : ∀ q ∈ l, 0 ≤ q.2 := fun q hq => hL q (List.mem_append_left _ hq)
    obtain ⟨hinv, hsort⟩ := ih hl
    rw [List.foldl_append, List.foldl_cons, List.foldl_nil]
    exact ⟨mapInv_step hinv hl hsort p.1 p.2, sorted_insertEdgeFace _ p.1 p.2 hsort⟩

theorem findInfo_of_mem_sorted {m : List ((ℕ × ℕ) × EdgeInfo)}
    (hs : List.Sorted edgeLt (m.map (·.1))) {k : ℕ × ℕ} {v : EdgeInfo}
    (hmem : (k, v) ∈ m) : findInfo m k = some v := by
  induction m with
  | nil => simp at hmem
  | cons p rest ih =>
    obtain ⟨k0, i0⟩ := p
    simp only [List.map_cons, List.sorted_cons] at hs
    rcases List.mem_cons.mp hmem with heq | hmem2
    · cases heq
      simp [findInfo]
    · have hkmem : k ∈ rest.map (·.1) := by
        exact List.mem_map_of_mem _ hmem2
      have hlt : edgeLt k0 k := hs.1 k hkmem
      have hne : ¬ k = k0 := by
        rintro rfl
        exact edgeLt_irrefl k hlt
      simp only [findInfo, if_neg hne]
      exact ih hs.2 hmem2

theorem findInfo_isSome_iff_mem (m : List ((ℕ × ℕ) × EdgeInfo)) (e : ℕ × ℕ) :
    (∃ v, findInfo m e = some v) ↔ e ∈ m.map (·.1) := by
  constructor
  · rintro ⟨v, hv⟩
    exact findInfo_some_mem hv
  · intro hmem
    induction m with
    | nil => simp at hmem
    | cons p rest ih =>
      obtain ⟨k0, i0⟩ := p
      by_cases h1 : e = k0
      · exact ⟨i0, by simp [findInfo, h1]⟩
      · simp only [List.map_cons, List.mem_cons] at hmem
        rcases hmem with h | h
        · exact absurd h h1
        · obtain ⟨v, hv⟩ := ih h
          exact ⟨v, by simp [findInfo, h1, hv]⟩

/-- Faces whose triangle contains the given canonical edge, ascending. -/
def facesContaining (tris : List (ℕ × ℕ × ℕ)) (e : ℕ × ℕ) : List ℤ :=
  (tris.enum.filter (fun it => decide (e ∈ triEdges it.2))).map (fun it => (it.1 : ℤ))

theorem canonEdge_eq {a b c d : ℕ} (h : canonEdge a b = canonEdge c d) :
    (a = c ∧ b = d) ∨ (a = d ∧ b = c) := by
  unfold canonEdge at h
  split at h <;> split at h <;>
    (simp only [Prod.mk.injEq] at h; omega)

theorem triEdges_nodup {a b c : ℕ} (hab : a ≠ b) (hbc : b ≠ c) (hac : a ≠ c) :
    (triEdges (a, b, c)).Nodup := by
  have h1 : canonEdge a b ≠ canonEdge b c := by
    intro h
    rcases canonEdge_eq h with ⟨h1, h2⟩ | ⟨h1, h2⟩ <;> omega
  have h2 : canonEdge b c ≠ canonEdge c a := by
    intro h
    rcases canonEdge_eq h with ⟨h1, h2⟩ | ⟨h1, h2⟩ <;> omega
  have h3 : canonEdge a b ≠ canonEdge c a := by
    intro h
    rcases canonEdge_eq h with ⟨h1, h2⟩ | ⟨h1, h2⟩ <;> omega
  simp [triEdges, List.nodup_cons, h1, h2, h3]

/-- Occurrence count of a canonical edge in a list of edges. -/
def countE (l : List (ℕ × ℕ)) (e : ℕ × ℕ) : ℕ :=
  l.countP (fun x => decide (x = e))

theorem countE_eq_one {l : List (ℕ × ℕ)} {e : ℕ × ℕ} (hnd : l.Nodup) (hmem : e ∈ l) :
    countE l e = 1 := by
  induction l with
  | nil => simp at hmem
  | cons x xs ih =>
    simp only [List.nodup_cons] at hnd
    rcases List.mem_cons.mp hmem with rfl | hmem2
    · have h0 : countE xs e = 0 := by
        unfold countE
        rw [List.countP_eq_zero]
        intro a ha
        simp only [decide_eq_true_eq]
        rintro rfl
        exact hnd.1 ha
      simp only [countE, List.countP_cons, decide_eq_true_eq] at h0 ⊢
      simp [h0]
    · have hne : ¬ x = e := by
        rintro rfl
        exact hnd.1 hmem2
      simp only [countE, List.countP_cons, decide_eq_true_eq] at ih ⊢
      simp [hne, ih hnd.2 hmem2]

theorem countE_eq_zero {l : List (ℕ × ℕ)} {e : ℕ × ℕ} (hmem : e ∉ l) :
    countE l e = 0 := by
  unfold countE
  rw [List.countP_eq_zero]
  intro a ha
  simp only [decide_eq_true_eq]
  rintro rfl
  exact hmem ha

theorem occFaces_map_pair (l : List (ℕ × ℕ)) (i : ℤ) (e : ℕ × ℕ) :
    occFaces (l.map fun f => (f, i)) e = List.replicate (countE l e) i := by
  induction l with
  | nil => simp [occFaces, countE]
  | cons x xs ih =>
    by_cases h : x = e
    · subst h
      simp only [List.map_cons, occFaces, List.filter_cons]
      simp only [occFaces] at ih
      simp [countE, List.countP_cons, ih, List.replicate_succ]
    · simp only [List.map_cons, occFaces, List.filter_cons]
      simp only [occFaces] at ih
      simp only [countE, List.countP_cons, decide_eq_true_eq] at ih ⊢
      simp [h, ih]

theorem occFaces_flatMap (l : List (ℕ × (ℕ × ℕ × ℕ))) (e : ℕ × ℕ) :
    occFaces (l.flatMap fun it => (triEdges it.2).map fun f => (f, (it.1 : ℤ))) e =
      l.flatMap fun it => occFaces ((triEdges it.2).map fun f => (f, (it.1 : ℤ))) e := by
  induction l with
  | nil => simp [occFaces]
  | cons x xs ih =>
    simp only [List.flatMap_cons, occFaces_append, ih]

theorem flatMap_occ_eq_filter (l : List (ℕ × (ℕ × ℕ × ℕ))) (e : ℕ × ℕ)
    (hd : ∀ it ∈ l, it.2.1 ≠ it.2.2.1 ∧ it.2.2.1 ≠ it.2.2.2 ∧ it.2.1 ≠ it.2.2.2) :
    (l.flatMap fun it => occFaces ((triEdges it.2).map fun f => (f, (it.1 : ℤ))) e) =
      (l.filter (fun it => decide (e ∈ triEdges it.2))).map (fun it => (it.1 : ℤ)) := by
  induction l with
  | nil => simp
  | cons it rest ih =>
    have hdit := hd it (List.mem_cons_self it rest)
    obtain ⟨⟨i, a, b, c⟩, hit⟩ : ∃ p, p = it := ⟨it, rfl⟩
    subst hit
    have hnd : (triEdges (a, b, c)).Nodup :=
      triEdges_nodup hdit.1 hdit.2.1 hdit.2.2
    have hrest : ∀ q ∈ rest, q.2.1 ≠ q.2.2.1 ∧ q.2.2.1 ≠ q.2.2.2 ∧ q.2.1 ≠ q.2.2.2 :=
      fun q hq => hd q (List.mem_cons_of_mem _ hq)
    rw [List.flatMap_cons, List.filter_cons, ih hrest, occFaces_map_pair]
    by_cases hmem : e ∈ triEdges (a, b, c)
    · have hcount : countE (triEdges (a, b, c)) e = 1 := countE_eq_one hnd hmem
      simp [hcount, hmem]
    · have hcount : countE (triEdges (a, b, c)) e = 0 := countE_eq_zero hmem
      simp [hcount, hmem]

/-- With pairwise-distinct vertex indices in every triangle, the emission
occurrences of an edge are exactly the faces whose triangle contains it. -/
theorem occFaces_emissions_eq (tris : List (ℕ × ℕ × ℕ))
    (hdist : ∀ t ∈ tris, t.1 ≠ t.2.1 ∧ t.2.1 ≠ t.2.2 ∧ t.1 ≠ t.2.2) (e : ℕ × ℕ) :
    occFaces (emissions tris) e = facesContaining tris e := by
  unfold emissions facesContaining
  rw [occFaces_flatMap]
  refine flatMap_occ_eq_filter _ e ?_
  intro it hit
  have h2 : it.2 ∈ tris.enum.map Prod.snd := List.mem_map_of_mem _ hit
  rw [List.enum_map_snd] at h2
  exact hdist it.2 h2

theorem occFaces_ne_nil_iff (L : List ((ℕ × ℕ) × ℤ)) (e : ℕ × ℕ) :
    occFaces L e ≠ [] ↔ ∃ p ∈ L, p.1 = e := by
  simp only [occFaces, ne_eq, List.map_eq_nil_iff, List.filter_eq_nil_iff,
    decide_eq_true_eq, not_forall]
  constructor
  · rintro ⟨p, hp, hpe⟩
    exact ⟨p, hp, by simpa using hpe⟩
  · rintro ⟨p, hp, hpe⟩
    exact ⟨p, hp, by simpa using hpe⟩

theorem exists_emission_iff (tris : List (ℕ × ℕ × ℕ)) (e : ℕ × ℕ) :
    (∃ p ∈ emissions tris, p.1 = e) ↔ ∃ t ∈ tris, e ∈ triEdges t := by
  constructor
  · rintro ⟨p, hp, rfl⟩
    simp only [emissions, List.mem_flatMap, List.mem_map] at hp
    obtain ⟨it, hit, f, hf, hfe⟩ := hp
    have h2 : it.2 ∈ tris.enum.map Prod.snd := List.mem_map_of_mem _ hit
    rw [List.enum_map_snd] at h2
    exact ⟨it.2, h2, by rw [← (Prod.mk.injEq _ _ _ _).mp hfe |>.1]; exact hf⟩
  · rintro ⟨t, ht, he⟩
    have h2 : t ∈ tris.enum.map Prod.snd := by rw [List.enum_map_snd]; exact ht
    obtain ⟨it, hit, hit2⟩ := List.mem_map.mp h2
    refine ⟨(e, (it.1 : ℤ)), ?_, rfl⟩
    simp only [emissions, List.mem_flatMap]
    exact ⟨it, hit, List.mem_map.mpr ⟨e, hit2 ▸ he, rfl⟩⟩

/-- Property stated by claim C7: the edge table lists the unique
canonicalized triangle edges in ascending order; `f0` is the first
encountering face (hence nonnegative), `f1` the second with the first two
kept on further encounters, and `f1 = -1` exactly for boundary edges (edges
with a single occurrence); with valid triangles the occurrence list is the
list of faces containing the edge. -/
def TopologySpec (mesh : Mesh) : Prop :=
  List.Sorted edgeLt (build_topology mesh).edges ∧
  (∀ e : ℕ × ℕ, e ∈ (build_topology mesh).edges ↔ ∃ t ∈ mesh.triangles, e ∈ triEdges t) ∧
  (build_topology mesh).edgeFaces.length = (build_topology mesh).edges.length ∧
  (∀ i, i < (build_topology mesh).edges.length →
    (build_topology mesh).edgeFaces.getD i (0, 0) =
      ((occFaces (emissions mesh.triangles) ((build_topology mesh).edges.getD i (0, 0))).headD (-1),
       ((occFaces (emissions mesh.triangles) ((build_topology mesh).edges.getD i (0, 0))).tail).headD (-1)) ∧
    0 ≤ ((build_topology mesh).edgeFaces.getD i (0, 0)).1 ∧
    (((build_topology mesh).edgeFaces.getD i (0, 0)).2 = -1 ↔
      (occFaces (emissions mesh.triangles) ((build_topology mesh).edges.getD i (0, 0))).length = 1) ∧
    occFaces (emissions mesh.triangles) ((build_topology mesh).edges.getD i (0, 0)) =
      facesContaining mesh.triangles ((build_topology mesh).edges.getD i (0, 0)))

/-- Claim C7: `build_topology` produces the unique canonicalized edges in
ascending order with the first/second encountering faces and `f1 = -1`
exactly on boundary edges. -/
theorem build_topology_satisfies_spec (mesh : Mesh)
    (hdist : ∀ t ∈ mesh.triangles, t.1 ≠ t.2.1 ∧ t.2.1 ≠ t.2.2 ∧ t.1 ≠ t.2.2) :
    TopologySpec mesh := by
  obtain ⟨hinv, hsort⟩ := foldMap_spec (emissions mesh.triangles) (emissions_nonneg _)
  have hedges : (build_topology mesh).edges = (edgeMapOf mesh.triangles).map (·.1) := rfl
  have hfaces : (build_topology mesh).edgeFaces =
      (edgeMapOf mesh.triangles).map (fun p => (p.2.face0, p.2.face1)) := rfl
  have hmapinv : MapInv (emissions mesh.triangles) (edgeMapOf mesh.triangles) := hinv
  have hmsort : List.Sorted edgeLt ((edgeMapOf mesh.triangles).map (·.1)) := hsort
  refine ⟨hedges ▸ hmsort, ?_, ?_, ?_⟩
  · intro e
    rw [hedges, ← findInfo_isSome_iff_mem, ← exists_emission_iff, ← occFaces_ne_nil_iff]
    rw [hmapinv e]
    cases hocc : occFaces (emissions mesh.triangles) e with
    | nil => simp [occInfo]
    | cons f rest => simp [occInfo]
  · rw [hedges, hfaces]; simp
  · intro i hi
    rw [hedges] at hi
    rw [List.length_map] at hi
    have hgetE : (build_topology mesh).edges.getD i (0, 0) =
        ((edgeMapOf mesh.triangles).getD i ((0,0), ⟨0,0⟩)).1 := by
      rw [hedges, List.getD_eq_getElem _ _ (by simpa using hi),
        List.getD_eq_getElem _ _ hi, List.getElem_map]
    have hgetF : (build_topology mesh).edgeFaces.getD i (0, 0) =
        (((edgeMapOf mesh.triangles).getD i ((0,0), ⟨0,0⟩)).2.face0,
         ((edgeMapOf mesh.triangles).getD i ((0,0), ⟨0,0⟩)).2.face1) := by
      rw [hfaces, List.getD_eq_getElem _ _ (by simpa using hi),
        List.getD_eq_getElem _ _ hi, List.getElem_map]
    set p := (edgeMapOf mesh.triangles).getD i ((0,0), ⟨0,0⟩) with hp
    have hpmem : p ∈ edgeMapOf mesh.triangles := by
      rw [hp, List.getD_eq_getElem _ _ hi]
      exact List.getElem_mem hi
    have hfind : findInfo (edgeMapOf mesh.triangles) p.1 = some p.2 := by
      have := findInfo_of_mem_sorted hmsort (k := p.1) (v := p.2) (by
        simpa using hpmem)
      exact this
    rw [hmapinv p.1] at hfind
    cases hocc : occFaces (emissions mesh.triangles) p.1 with
    | nil => rw [hocc] at hfind; simp [occInfo] at hfind
    | cons f rest =>
      rw [hocc] at hfind
      simp only [occInfo, Option.some.injEq] at hfind
      have hf0 : p.2.face0 = f := by rw [← hfind]
      have hf1 : p.2.face1 = rest.headD (-1) := by rw [← hfind]
      have hfnn : 0 ≤ f :=
        occFaces_nonneg (emissions_nonneg _) (hocc ▸ List.mem_cons_self f rest)
      refine ⟨?_, ?_, ?_, ?_⟩
      · rw [hgetF, hgetE, hocc, hf0, hf1]
        simp
      · rw [hgetF]
        simpa [hf0] using hfnn
      · rw [hgetF, hgetE, hocc]
        simp only [hf1]
        cases rest with
        | nil => simp
        | cons r rs =>
          have hrnn : 0 ≤ r :=
            occFaces_nonneg (emissions_nonneg _) (by rw [hocc]; simp)
          constructor
          · intro h
            simp only [List.headD] at h
            omega
          · intro h
            simp at h
      · rw [hgetE]
        exact occFaces_emissions_eq mesh.triangles hdist p.1

/-- Witness for claim C7 at a concrete two-triangle mesh sharing one edge. -/
def meshW7 : Mesh :=
  { vertices := [⟨0,0,0⟩, ⟨1,0,0⟩, ⟨0,1,0⟩, ⟨1,1,0⟩]
    triangles := [(0,1,2), (2,1,3)]
    uvs := none }

theorem build_topology_satisfies_spec_witness :
    (∀ t ∈ meshW7.triangles, t.1 ≠ t.2.1 ∧ t.2.1 ≠ t.2.2 ∧ t.1 ≠ t.2.2) ∧
    TopologySpec meshW7 :=
  ⟨by decide, build_topology_satisfies_spec meshW7 (by decide)⟩

/-! ## Seam detection (seam_detection.cpp) -/

/-- Append one `(neighbor_face, edge_index)` record to a face's dual
adjacency list (`face_adjacency[f].push_back(p)`). -/
def addDualNbr (adj : List (List (ℕ × ℕ))) (f : ℕ) (p : ℕ × ℕ) : List (List (ℕ × ℕ)) :=
  adj.set f (adj.getD f [] ++ [p])

/-- Dual-graph adjacency construction of `detect_seams`, STEP 1: for each
interior edge, record the connection on both faces. -/
def buildDualAdj (numFaces numEdges : ℕ) (ef : List (ℤ × ℤ)) : List (List (ℕ × ℕ)) :=
  (List.range numEdges).foldl
    (fun adj e =>
      let fp := ef.getD e (-1, -1)
      if 0 ≤ fp.1 ∧ 0 ≤ fp.2 then
        addDualNbr (addDualNbr adj fp.1.toNat (fp.2.toNat, e)) fp.2.toNat (fp.1.toNat, e)
      else adj)
    (List.replicate numFaces [])

/-- Neighbor scan of one popped face in the BFS of `detect_seams`: mark
unvisited neighbors, record the used tree edge, collect the pushes. -/
def seamBfsStep (nbrs : List (ℕ × ℕ)) (visited : List Bool) (tree : List ℕ) :
    List Bool × List ℕ × List ℕ :=
  nbrs.foldl
    (fun st nb =>
      if st.1.getD nb.1 false then st
      else (st.1.set nb.1 true, st.2.1 ++ [nb.2], st.2.2 ++ [nb.1]))
    (visited, tree, [])

/-- FIFO BFS loop of `detect_seams` (STEP 2).  The fuel argument only bounds
the number of pops; every face is pushed at most once, so `num_faces` pops
always suffice (each step pops one element and `queue length + number of
unvisited faces` decreases by one). -/
def seamBfs (adj : List (List (ℕ × ℕ))) :
    ℕ → List ℕ → List Bool → List ℕ → List Bool × List ℕ
  | 0, _, visited, tree => (visited, tree)
  | _ + 1, [], visited, tree => (visited, tree)
  | fuel + 1, face :: rest, visited, tree =>
    let st := seamBfsStep (adj.getD face []) visited tree
    seamBfs adj fuel (rest ++ st.2.2) st.1 st.2.1

/-- Core of `detect_seams`: single BFS from face 0, then the interior edges
not used by the BFS tree, ascending (`std::set` iteration).  The angle
threshold is unused by the source (`(void)angle_threshold`). -/
def detect_seams (mesh : Mesh) (topo : TopologyInfo) (angleThreshold : ℚ) : List ℕ :=
  let F := mesh.triangles.length
  let adj := buildDualAdj F topo.edges.length topo.edgeFaces
  let visited0 := (List.replicate F false).set 0 true
  let res := seamBfs adj F [0] visited0 []
  (List.range topo.edges.length).filter fun e =>
    let fp := topo.edgeFaces.getD e (-1, -1)
    decide (0 ≤ fp.1) && decide (0 ≤ fp.2) && !(res.2.contains e)

/-- Interior edge: both adjacent-face entries are valid (`f0 ≥ 0 && f1 ≥ 0`). -/
def interiorEdge (topo : TopologyInfo) (e : ℕ) : Prop :=
  0 ≤ (topo.edgeFaces.getD e (-1, -1)).1 ∧ 0 ≤ (topo.edgeFaces.getD e (-1, -1)).2

instance (topo : TopologyInfo) (e : ℕ) : Decidable (interiorEdge topo e) := by
  unfold interiorEdge; infer_instance

/-- Edge `e` connects faces `f` and `g` in the dual graph. -/
def edgeConnects (topo : TopologyInfo) (e f g : ℕ) : Prop :=
  interiorEdge topo e ∧
  (((topo.edgeFaces.getD e (-1, -1)).1.toNat = f ∧
    (topo.edgeFaces.getD e (-1, -1)).2.toNat = g) ∨
   ((topo.edgeFaces.getD e (-1, -1)).1.toNat = g ∧
    (topo.edgeFaces.getD e (-1, -1)).2.toNat = f))

instance (topo : TopologyInfo) (e f g : ℕ) : Decidable (edgeConnects topo e f g) := by
  unfold edgeConnects; infer_instance

/-- Dual-graph adjacency of faces: some interior edge connects them. -/
def DualAdj (topo : TopologyInfo) (f g : ℕ) : Prop :=
  ∃ e ∈ List.range topo.edges.length, edgeConnects topo e f g

/-- Dual-graph reachability. -/
def DualReach (topo : TopologyInfo) : ℕ → ℕ → Prop :=
  Relation.ReflTransGen (DualAdj topo)

/-- Fold induction: a property preserved by every step holds of the fold. -/
theorem foldl_induction {α : Type} {β : Type} (l : List α) (op : β → α → β) (b : β)
    (C : β → Prop) (hb : C b) (hstep : ∀ s, C s → ∀ a ∈ l, C (op s a)) :
    C (l.foldl op b) := by
  induction l generalizing b with
  | nil => exact hb
  | cons x xs ih =>
    exact ih (op b x) (hstep b hb x (List.mem_cons_self x xs))
      fun s hs a ha => hstep s hs a (List.mem_cons_of_mem x ha)

theorem mem_addDualNbr {adj : List (List (ℕ × ℕ))} {f0 f : ℕ} {q p : ℕ × ℕ}
    (hp : p ∈ (addDualNbr adj f0 q).getD f []) :
    p ∈ adj.getD f [] ∨ (f = f0 ∧ p = q) := by
  unfold addDualNbr at hp
  by_cases hf : f = f0
  · subst hf
    by_cases hlen : f < adj.length
    · rw [List.getD_eq_getElem _ _ (by simpa using hlen), List.getElem_set_self] at hp
      rcases List.mem_append.mp hp with h | h
      · exact Or.inl h
      · exact Or.inr ⟨rfl, by simpa using h⟩
    · rw [List.getD_eq_default _ _ (by simpa using hlen)] at hp
      simp at hp
  · by_cases hlen : f < adj.length
    · rw [List.getD_eq_getElem _ _ (by simpa using hlen),
        List.getElem_set_ne (by omega)] at hp
      rw [List.getD_eq_getElem _ _ hlen]
      exact Or.inl hp
    · rw [List.getD_eq_default _ _ (by simpa using hlen)] at hp
      simp at hp

/-- Soundness of the dual adjacency lists: every record `(g, e)` in face
`f`'s list comes from an interior edge `e < numEdges` connecting `f` and `g`. -/
theorem buildDualAdj_sound (topo : TopologyInfo) (F : ℕ) :
    ∀ f p, p ∈ (buildDualAdj F topo.edges.length topo.edgeFaces).getD f [] →
      p.2 ∈ List.range topo.edges.length ∧ edgeConnects topo p.2 f p.1 := by
  unfold buildDualAdj
  refine foldl_induction _ _ _
    (fun (adj : List (List (ℕ × ℕ))) => ∀ (f : ℕ) (p : ℕ × ℕ), p ∈ adj.getD f [] →
      p.2 ∈ List.range topo.edges.length ∧ edgeConnects topo p.2 f p.1)
    ?_ ?_
  · intro f p hp
    by_cases hf : f < F
    · rw [List.getD_eq_getElem _ _ (by simpa using hf)] at hp
      simp at hp
    · rw [List.getD_eq_default _ _ (by simpa using hf)] at hp
      simp at hp
  · intro adj hadj e he
    intro f p hp
    dsimp only at hp
    split at hp
    next hint =>
      rcases mem_addDualNbr hp with hp2 | ⟨rfl, rfl⟩
      · rcases mem_addDualNbr hp2 with hp3 | ⟨rfl, rfl⟩
        · exact hadj f p hp3
        · refine ⟨he, ?_⟩
          unfold edgeConnects interiorEdge
          exact ⟨⟨hint.1, hint.2⟩, Or.inl ⟨rfl, rfl⟩⟩
      · refine ⟨he, ?_⟩
        unfold edgeConnects interiorEdge
        exact ⟨⟨hint.1, hint.2⟩, Or.inr ⟨rfl, rfl⟩⟩
    next => exact hadj f p hp

/-- Effect of `List.set` on `getD`, used for all array writes. -/
theorem getD_set {α : Type} (l : List α) (i : ℕ) (a : α) (f : ℕ) (d : α) :
    (l.set i a).getD f d = if i = f ∧ i < l.length then a else l.getD f d := by
  by_cases hf : f < l.length
  · rw [List.getD_eq_getElem _ _ (by simpa using hf)]
    by_cases hif : i = f
    · subst hif
      rw [List.getElem_set_self]
      simp [hf]
    · rw [List.getElem_set_ne (by omega)]
      rw [List.getD_eq_getElem _ _ hf]
      simp [hif]
  · rw [List.getD_eq_default _ _ (by simpa using hf)]
    rw [List.getD_eq_default _ _ (by simpa using hf)]
    have : ¬ (i = f ∧ i < l.length) := by
      rintro ⟨rfl, h⟩
      exact hf h
    simp [this]

/-- Tree-edge invariant of the seam BFS: every recorded tree edge connects
two faces reachable from face 0. -/
def TreeInv (topo : TopologyInfo) (tree : List ℕ) : Prop :=
  ∀ e ∈ tree, ∃ f g, edgeConnects topo e f g ∧ DualReach topo 0 f ∧ DualReach topo 0 g

theorem seamBfsStep_invariant (topo : TopologyInfo) (adj : List (List (ℕ × ℕ)))
    (hadj : ∀ f p, p ∈ adj.getD f [] →
      p.2 ∈ List.range topo.edges.length ∧ edgeConnects topo p.2 f p.1)
    (face : ℕ) (hface : DualReach topo 0 face) (visited : List Bool) (tree : List ℕ)
    (hv : ∀ f, visited.getD f false = true → DualReach topo 0 f)
    (ht : TreeInv topo tree) :
    (∀ f, (seamBfsStep (adj.getD face []) visited tree).1.getD f false = true →
      DualReach topo 0 f) ∧
    TreeInv topo (seamBfsStep (adj.getD face []) visited tree).2.1 ∧
    (∀ f ∈ (seamBfsStep (adj.getD face []) visited tree).2.2, DualReach topo 0 f) := by
  unfold seamBfsStep
  refine foldl_induction _ _ _
    (fun (st : List Bool × List ℕ × List ℕ) =>
      (∀ f, st.1.getD f false = true → DualReach topo 0 f) ∧
      TreeInv topo st.2.1 ∧
      (∀ f ∈ st.2.2, DualReach topo 0 f))
    ⟨hv, ht, by simp⟩ ?_
  intro st hst nb hnb
  obtain ⟨hconn_mem, hconn⟩ := hadj face nb hnb
  have hreach : DualReach topo 0 nb.1 :=
    Relation.ReflTransGen.tail hface ⟨nb.2, hconn_mem, hconn⟩
  split
  next => exact hst
  next =>
    refine ⟨?_, ?_, ?_⟩
    · intro f hf
      rw [getD_set] at hf
      split at hf
      next h => exact h.1 ▸ hreach
      next => exact hst.1 f hf
    · intro e he
      rcases List.mem_append.mp he with h | h
      · exact hst.2.1 e h
      · have : e = nb.2 := by simpa using h
        subst this
        exact ⟨face, nb.1, hconn, hface, hreach⟩
    · intro f hf
      rcases List.mem_append.mp hf with h | h
      · exact hst.2.2 f h
      · have : f = nb.1 := by simpa using h
        subst this
        exact hreach

theorem seamBfs_treeInv (topo : TopologyInfo) (adj : List (List (ℕ × ℕ)))
    (hadj : ∀ f p, p ∈ adj.getD f [] →
      p.2 ∈ List.range topo.edges.length ∧ edgeConnects topo p.2 f p.1) :
    ∀ (fuel : ℕ) (queue : List ℕ) (visited : List Bool) (tree : List ℕ),
      (∀ f ∈ queue, DualReach topo 0 f) →
      (∀ f, visited.getD f false = true → DualReach topo 0 f) →
      TreeInv topo tree →
      TreeInv topo (seamBfs adj fuel queue visited tree).2 := by
  intro fuel
  induction fuel with
  | zero => intro queue visited tree _ _ ht; exact ht
  | succ n ih =>
    intro queue visited tree hq hv ht
    cases queue with
    | nil => exact ht
    | cons face rest =>
      have hface : DualReach topo 0 face := hq face (List.mem_cons_self _ _)
      obtain ⟨hv2, ht2, hpush⟩ :=
        seamBfsStep_invariant topo adj hadj face hface visited tree hv ht
      rw [seamBfs]
      refine ih _ _ _ ?_ hv2 ht2
      intro f hf
      rcases List.mem_append.mp hf with h | h
      · exact hq f (List.mem_cons_of_mem _ h)
      · exact hpush f h

/-- Property used for the amended claim C4: the returned seam set consists
of interior edges only, and every interior edge with a face that the single
BFS from face 0 cannot reach is a seam — in particular, on a disconnected
dual graph the whole interior of every component not containing face 0 is
turned into seams (no BFS restart takes place). -/
def SeamsSingleBfsSpec (mesh : Mesh) (topo : TopologyInfo) (th : ℚ) : Prop :=
  (∀ e ∈ detect_seams mesh topo th, e < topo.edges.length ∧ interiorEdge topo e) ∧
  (∀ e, e < topo.edges.length → interiorEdge topo e →
    ¬ DualReach topo 0 (topo.edgeFaces.getD e (-1, -1)).1.toNat →
    e ∈ detect_seams mesh topo th)

/-- Claim C4, amended: `detect_seams` runs a single BFS rooted at face 0 and
returns the interior edges not used by its tree; interior edges of dual
components not containing face 0 all become seams. -/
theorem detect_seams_single_bfs (mesh : Mesh) (topo : TopologyInfo) (th : ℚ) :
    SeamsSingleBfsSpec mesh topo th := by
  constructor
  · intro e he
    unfold detect_seams at he
    rw [List.mem_filter] at he
    obtain ⟨hr, hc⟩ := he
    refine ⟨by simpa using hr, ?_⟩
    simp only [Bool.and_eq_true, decide_eq_true_eq] at hc
    exact ⟨hc.1.1, hc.1.2⟩
  · intro e he hint hunreach
    unfold detect_seams
    rw [List.mem_filter]
    refine ⟨by simpa using he, ?_⟩
    simp only [Bool.and_eq_true, decide_eq_true_eq, Bool.not_eq_true']
    refine ⟨⟨hint.1, hint.2⟩, ?_⟩
    set adj := buildDualAdj mesh.triangles.length topo.edges.length topo.edgeFaces with hadjdef
    have hadj := buildDualAdj_sound topo mesh.triangles.length
    rw [← hadjdef] at hadj
    have htree : TreeInv topo
        (seamBfs adj mesh.triangles.length [0]
          ((List.replicate mesh.triangles.length false).set 0 true) []).2 := by
      refine seamBfs_treeInv topo adj hadj _ _ _ _ ?_ ?_ ?_
      · intro f hf
        have : f = 0 := by simpa using hf
        exact this ▸ Relation.ReflTransGen.refl
      · intro f hf
        rw [getD_set] at hf
        split at hf
        next h => exact h.1 ▸ Relation.ReflTransGen.refl
        next =>
          exfalso
          by_cases hlen : f < mesh.triangles.length
          · rw [List.getD_eq_getElem _ _ (by simpa using hlen)] at hf
            simp at hf
          · rw [List.getD_eq_default _ _ (by simpa using hlen)] at hf
            exact Bool.false_ne_true hf
      · intro e2 he2
        simp at he2
    have hnotmem : e ∉ (seamBfs adj mesh.triangles.length [0]
        ((List.replicate mesh.triangles.length false).set 0 true) []).2 := by
      intro hmem
      obtain ⟨f, g, hconn, hrf, hrg⟩ := htree e hmem
      rcases hconn.2 with ⟨h1, _⟩ | ⟨h1, _⟩
      · exact hunreach (by rw [h1]; exact hrf)
      · exact hunreach (by rw [h1]; exact hrg)
    simp [List.contains, List.elem_eq_mem, hnotmem]

/-- Modelled from the spec: the claim's seam selector (spec §4.3, edge
cases) repeats the BFS from the lowest-index unvisited face so that a
spanning forest covering every face is built; the seam set is the interior
edges not used by any BFS tree.  The source (`detect_seams`) has no such
restart loop; this definition exists only to compare against it. -/
def detectSeamsForest (mesh : Mesh) (topo : TopologyInfo) : List ℕ :=
  let F := mesh.triangles.length
  let adj := buildDualAdj F topo.edges.length topo.edgeFaces
  let res := (List.range F).foldl
    (fun (st : List Bool × List ℕ) start =>
      if st.1.getD start false then st
      else seamBfs adj F [start] (st.1.set start true) st.2)
    (List.replicate F false, [])
  (List.range topo.edges.length).filter fun e =>
    let fp := topo.edgeFaces.getD e (-1, -1)
    decide (0 ≤ fp.1) && decide (0 ≤ fp.2) && !(res.2.contains e)

/-- Mesh with a disconnected face-dual graph: two separate quads, each made
of two triangles sharing one interior edge. -/
def meshD : Mesh :=
  { vertices := [⟨0,0,0⟩, ⟨1,0,0⟩, ⟨0,1,0⟩, ⟨1,1,0⟩, ⟨5,0,0⟩, ⟨6,0,0⟩, ⟨5,1,0⟩, ⟨6,1,0⟩]
    triangles := [(0,1,2), (2,1,3), (4,5,6), (6,5,7)]
    uvs := none }

/-- Counterexample to claim C4: on the disconnected mesh `meshD` the source
returns the second component's interior edge (index 7, edge (5,6)) as a
seam, whereas the claimed repeated-BFS spanning forest would use that edge
as a tree edge and return no seams at all. -/
theorem detect_seams_counterexample :
    detect_seams meshD (build_topology meshD) 30 = [7] ∧
    detectSeamsForest meshD (build_topology meshD) = [] ∧
    detect_seams meshD (build_topology meshD) 30 ≠
      detectSeamsForest meshD (build_topology meshD) := by
  refine ⟨by decide, by decide, by decide⟩

/-- Reachability stays inside any set closed under the interior edges. -/
theorem dualReach_subset (topo : TopologyInfo) (S : List ℕ) (h0 : 0 ∈ S)
    (hS : ∀ e ∈ List.range topo.edges.length, interiorEdge topo e →
      (((topo.edgeFaces.getD e (-1, -1)).1.toNat ∈ S) ↔
       ((topo.edgeFaces.getD e (-1, -1)).2.toNat ∈ S))) :
    ∀ x, DualReach topo 0 x → x ∈ S := by
  intro x hx
  induction hx with
  | refl => exact h0
  | tail hr hadj ih =>
    obtain ⟨e, he, hconn⟩ := hadj
    rcases hconn.2 with ⟨h1, h2⟩ | ⟨h1, h2⟩
    · rw [← h2]
      exact (hS e he hconn.1).mp (by rw [h1]; exact ih)
    · rw [← h1]
      exact (hS e he hconn.1).mpr (by rw [h2]; exact ih)

/-- Witness for the amended claim C4: on `meshD`, edge 7 is interior, its
first face (face 2) is not dual-reachable from face 0, and the theorem
places it in the seam set. -/
theorem detect_seams_single_bfs_witness :
    (7 < (build_topology meshD).edges.length ∧
      interiorEdge (build_topology meshD) 7) ∧
    7 ∈ detect_seams meshD (build_topology meshD) 30 := by
  refine ⟨⟨by decide, by decide⟩, ?_⟩
  refine (detect_seams_single_bfs meshD (build_topology meshD) 30).2 7
    (by decide) (by decide) ?_
  intro hreach
  have hmem : ((build_topology meshD).edgeFaces.getD 7 (-1, -1)).1.toNat ∈ [0, 1] :=
    dualReach_subset (build_topology meshD) [0, 1] (by decide) (by decide) _ hreach
  revert hmem
  decide

/-! ## Island extraction (unwrap.cpp, `extract_islands`) -/

/-- Append one neighbor to a face's island adjacency list. -/
def addIslNbr (adj : List (List ℕ)) (f g : ℕ) : List (List ℕ) :=
  adj.set f (adj.getD f [] ++ [g])

/-- One edge of the island-adjacency construction: seam edges are skipped,
interior edges connect their two faces both ways. -/
def islAdjStep (topo : TopologyInfo) (seams : List ℕ) (adj : List (List ℕ))
    (e : ℕ) : List (List ℕ) :=
  if e ∈ seams then adj
  else if 0 ≤ (topo.edgeFaces.getD e (-1, -1)).1 ∧
            0 ≤ (topo.edgeFaces.getD e (-1, -1)).2 then
    addIslNbr
      (addIslNbr adj (topo.edgeFaces.getD e (-1, -1)).1.toNat
        (topo.edgeFaces.getD e (-1, -1)).2.toNat)
      (topo.edgeFaces.getD e (-1, -1)).2.toNat
      (topo.edgeFaces.getD e (-1, -1)).1.toNat
  else adj

theorem islAdjStep_eq (topo : TopologyInfo) (seams : List ℕ)
    (adj : List (List ℕ)) (e : ℕ) :
    islAdjStep topo seams adj e =
      if e ∈ seams then adj
      else if 0 ≤ (topo.edgeFaces.getD e (-1, -1)).1 ∧
                0 ≤ (topo.edgeFaces.getD e (-1, -1)).2 then
        addIslNbr
          (addIslNbr adj (topo.edgeFaces.getD e (-1, -1)).1.toNat
            (topo.edgeFaces.getD e (-1, -1)).2.toNat)
          (topo.edgeFaces.getD e (-1, -1)).2.toNat
          (topo.edgeFaces.getD e (-1, -1)).1.toNat
      else adj := rfl

/-- Face adjacency restricted to non-seam interior edges (STEP 1-2 of
`extract_islands`). -/
def buildIslandAdj (numFaces : ℕ) (topo : TopologyInfo) (seams : List ℕ) :
    List (List ℕ) :=
  (List.range topo.edges.length).foldl (islAdjStep topo seams)
    (List.replicate numFaces [])

/-- Neighbor scan of one popped face in the flood fill: assign the island
id to unvisited neighbors and collect the pushes. -/
def markNbrs (nbrs : List ℕ) (ids : List ℤ) (lbl : ℕ) : List ℤ × List ℕ :=
  nbrs.foldl
    (fun (st : List ℤ × List ℕ) nb =>
      if st.1.getD nb 0 < 0 then (st.1.set nb (lbl : ℤ), st.2 ++ [nb]) else st)
    (ids, [])

/-- FIFO flood fill of `extract_islands` (STEP 3).  As for `seamBfs`, the
fuel only bounds the number of pops; `queue length + number of unassigned
faces` decreases by exactly one per pop, so `num_faces` pops suffice for
the calls made below. -/
def islBfs (adj : List (List ℕ)) (lbl : ℕ) : ℕ → List ℕ → List ℤ → List ℤ
  | 0, _, ids => ids
  | _ + 1, [], ids => ids
  | fuel + 1, face :: rest, ids =>
    let st := markNbrs (adj.getD face []) ids lbl
    islBfs adj lbl fuel (rest ++ st.2) st.1

/-- Core of `extract_islands`: scan faces in ascending order, flood-fill
from each unassigned face with monotonically increasing island ids; returns
the per-face ids and the number of islands. -/
def extract_islands (mesh : Mesh) (topo : TopologyInfo) (seams : List ℕ) :
    List ℤ × ℕ :=
  let F := mesh.triangles.length
  let adj := buildIslandAdj F topo seams
  (List.range F).foldl
    (fun (st : List ℤ × ℕ) start =>
      if 0 ≤ st.1.getD start 0 then st
      else (islBfs adj st.2 F [start] (st.1.set start (st.2 : ℤ)), st.2 + 1))
    (List.replicate F (-1 : ℤ), 0)

/-- Island adjacency as a relation: two faces are adjacent when some
non-seam interior edge connects them (the dual graph minus the seam set). -/
def IslAdj (topo : TopologyInfo) (seams : List ℕ) (f g : ℕ) : Prop :=
  ∃ e ∈ List.range topo.edges.length, e ∉ seams ∧ edgeConnects topo e f g

/-- Connectivity through non-seam interior edges. -/
def IslConn (topo : TopologyInfo) (seams : List ℕ) : ℕ → ℕ → Prop :=
  Relation.ReflTransGen (IslAdj topo seams)

theorem edgeConnects_symm {topo : TopologyInfo} {e f g : ℕ}
    (h : edgeConnects topo e f g) : edgeConnects topo e g f := by
  obtain ⟨hint, hor⟩ := h
  exact ⟨hint, hor.symm⟩

theorem islAdj_symm {topo : TopologyInfo} {seams : List ℕ} {f g : ℕ}
    (h : IslAdj topo seams f g) : IslAdj topo seams g f := by
  obtain ⟨e, he, hs, hc⟩ := h
  exact ⟨e, he, hs, edgeConnects_symm hc⟩

theorem islConn_symm {topo : TopologyInfo} {seams : List ℕ} {f g : ℕ}
    (h : IslConn topo seams f g) : IslConn topo seams g f := by
  induction h with
  | refl => exact Relation.ReflTransGen.refl
  | tail hr hadj ih =>
    exact Relation.ReflTransGen.head (islAdj_symm hadj) ih

/-- Faces of interior edges stay below the face count (holds for any
topology produced by `build_topology`; a hypothesis of the main theorem). -/
def TopoFacesBound (topo : TopologyInfo) (F : ℕ) : Prop :=
  ∀ e ∈ List.range topo.edges.length, interiorEdge topo e →
    (topo.edgeFaces.getD e (-1, -1)).1.toNat < F ∧
    (topo.edgeFaces.getD e (-1, -1)).2.toNat < F

instance (topo : TopologyInfo) (F : ℕ) : Decidable (TopoFacesBound topo F) := by
  unfold TopoFacesBound
  exact List.decidableBAll _ _

theorem islAdj_lt {topo : TopologyInfo} {seams : List ℕ} {F f g : ℕ}
    (hwf : TopoFacesBound topo F) (h : IslAdj topo seams f g) : f < F ∧ g < F := by
  obtain ⟨e, he, _, hint, hor⟩ := h
  have := hwf e he hint
  rcases hor with ⟨h1, h2⟩ | ⟨h1, h2⟩ <;>
    exact ⟨by omega, by omega⟩

theorem length_addIslNbr (adj : List (List ℕ)) (a b : ℕ) :
    (addIslNbr adj a b).length = adj.length := by
  simp [addIslNbr]

theorem mem_addIslNbr_iff {adj : List (List ℕ)} {a b f g : ℕ} :
    g ∈ (addIslNbr adj a b).getD f [] ↔
      g ∈ adj.getD f [] ∨ (f = a ∧ a < adj.length ∧ g = b) := by
  unfold addIslNbr
  by_cases hf : f = a
  · subst hf
    by_cases hlen : f < adj.length
    · rw [List.getD_eq_getElem _ _ (by simpa using hlen), List.getElem_set_self]
      rw [List.getD_eq_getElem _ _ hlen]
      constructor
      · intro h
        rcases List.mem_append.mp h with h | h
        · exact Or.inl h
        · exact Or.inr ⟨rfl, hlen, by simpa using h⟩
      · rintro (h | ⟨_, _, rfl⟩)
        · exact List.mem_append_left _ h
        · exact List.mem_append_right _ (by simp)
    · rw [List.getD_eq_default _ _ (by simpa using hlen)]
      rw [List.getD_eq_default _ _ (by simpa using hlen)]
      constructor
      · intro h; simp at h
      · rintro (h | ⟨_, h, _⟩)
        · simp at h
        · exact absurd h hlen
  · have haf : ¬ (a = f) := fun h => hf h.symm
    have hset : (adj.set a (adj.getD a [] ++ [b])).getD f [] = adj.getD f [] := by
      rw [getD_set]
      simp [haf]
    rw [hset]
    constructor
    · exact Or.inl
    · rintro (h | ⟨h, _, _⟩)
      · exact h
      · exact absurd h hf

theorem length_islAdjStep (topo : TopologyInfo) (seams : List ℕ)
    (adj : List (List ℕ)) (e : ℕ) :
    (islAdjStep topo seams adj e).length = adj.length := by
  rw [islAdjStep_eq]
  split
  · rfl
  · split
    · rw [length_addIslNbr, length_addIslNbr]
    · rfl

theorem length_foldl_islAdjStep (topo : TopologyInfo) (seams : List ℕ)
    (l : List ℕ) (adj : List (List ℕ)) :
    (l.foldl (islAdjStep topo seams) adj).length = adj.length := by
  induction l generalizing adj with
  | nil => rfl
  | cons x xs ih => rw [List.foldl_cons, ih, length_islAdjStep]

theorem buildIslandAdjAux (topo : TopologyInfo) (seams : List ℕ) (F : ℕ) :
    ∀ (n f g : ℕ),
      (g ∈ ((List.range n).foldl (islAdjStep topo seams)
        (List.replicate F [])).getD f [] ↔
      (f < F ∧ ∃ e, e < n ∧ e ∉ seams ∧ edgeConnects topo e f g)) := by
  intro n
  induction n with
  | zero =>
    intro f g
    simp only [List.range_zero, List.foldl_nil]
    constructor
    · intro h
      by_cases hf : f < F
      · rw [List.getD_eq_getElem _ _ (by simpa using hf)] at h
        simp at h
      · rw [List.getD_eq_default _ _ (by simpa using hf)] at h
        simp at h
    · rintro ⟨_, e, he, _⟩
      omega
  | succ n ih =>
    intro f g
    rw [List.range_succ, List.foldl_append, List.foldl_cons, List.foldl_nil]
    have hlen : ((List.range n).foldl (islAdjStep topo seams)
        (List.replicate F [])).length = F := by
      rw [length_foldl_islAdjStep]; simp
    rw [islAdjStep_eq]
    split
    next hseam =>
      rw [ih f g]
      constructor
      · rintro ⟨hf, e, he, hs, hc⟩
        exact ⟨hf, e, by omega, hs, hc⟩
      · rintro ⟨hf, e, he, hs, hc⟩
        rcases Nat.lt_or_ge e n with h | h
        · exact ⟨hf, e, h, hs, hc⟩
        · have : e = n := by omega
          subst this
          exact absurd hseam hs
    next hseam =>
      split
      next hint =>
        rw [mem_addIslNbr_iff, mem_addIslNbr_iff]
        rw [length_addIslNbr, hlen, ih f g]
        constructor
        · rintro ((⟨hf, e, he, hs, hc⟩ | ⟨rfl, hFlt, rfl⟩) | ⟨rfl, hFlt, rfl⟩)
          · exact ⟨hf, e, by omega, hs, hc⟩
          · refine ⟨hFlt, n, by omega, hseam, ⟨⟨hint.1, hint.2⟩, Or.inl ⟨rfl, rfl⟩⟩⟩
          · refine ⟨hFlt, n, by omega, hseam, ⟨⟨hint.1, hint.2⟩, Or.inr ⟨rfl, rfl⟩⟩⟩
        · rintro ⟨hf, e, he, hs, hc⟩
          rcases Nat.lt_or_ge e n with h | h
          · exact Or.inl (Or.inl ⟨hf, e, h, hs, hc⟩)
          · have : e = n := by omega
            subst this
            rcases hc.2 with ⟨h1, h2⟩ | ⟨h1, h2⟩
            · exact Or.inl (Or.inr ⟨h1.symm, h1 ▸ hf, h2.symm⟩)
            · exact Or.inr ⟨h2.symm, h2 ▸ hf, h1.symm⟩
      next hint =>
        rw [ih f g]
        constructor
        · rintro ⟨hf, e, he, hs, hc⟩
          exact ⟨hf, e, by omega, hs, hc⟩
        · rintro ⟨hf, e, he, hs, hc⟩
          rcases Nat.lt_or_ge e n with h | h
          · exact ⟨hf, e, h, hs, hc⟩
          · have : e = n := by omega
            subst this
            exact absurd ⟨hc.1.1, hc.1.2⟩ hint

/-- Membership in the island adjacency lists coincides with `IslAdj`. -/
theorem buildIslandAdj_mem_iff (topo : TopologyInfo) (seams : List ℕ) (F : ℕ)
    (hwf : TopoFacesBound topo F) :
    ∀ f g, g ∈ (buildIslandAdj F topo seams).getD f [] ↔ IslAdj topo seams f g := by
  intro f g
  unfold buildIslandAdj
  rw [buildIslandAdjAux topo seams F topo.edges.length f g]
  constructor
  · rintro ⟨hf, e, he, hs, hc⟩
    exact ⟨e, List.mem_range.mpr he, hs, hc⟩
  · rintro ⟨e, he, hs, hc⟩
    have hlt := islAdj_lt hwf ⟨e, he, hs, hc⟩
    exact ⟨hlt.1, e, List.mem_range.mp he, hs, hc⟩

/-- Number of unassigned entries in the island-id array. -/
def negCount (ids : List ℤ) : ℕ := ids.countP (fun x => decide (x < 0))

/-- One neighbor inspection of the flood fill. -/
def markStep (lbl : ℕ) (st : List ℤ × List ℕ) (nb : ℕ) : List ℤ × List ℕ :=
  if st.1.getD nb 0 < 0 then (st.1.set nb (lbl : ℤ), st.2 ++ [nb]) else st

theorem markNbrs_eq_foldl (nbrs : List ℕ) (ids : List ℤ) (lbl : ℕ) :
    markNbrs nbrs ids lbl = nbrs.foldl (markStep lbl) (ids, []) := rfl

theorem negCount_set_nonneg {ids : List ℤ} {nb : ℕ} {v : ℤ}
    (h : ids.getD nb 0 < 0) (hv : 0 ≤ v) :
    negCount (ids.set nb v) + 1 = negCount ids := by
  induction ids generalizing nb with
  | nil => simp [List.getD] at h
  | cons x xs ih =>
    cases nb with
    | zero =>
      simp only [List.getD_cons_zero] at h
      simp only [List.set_cons_zero, negCount, List.countP_cons, decide_eq_true_eq]
      have h1 : ¬ (v < 0) := by omega
      simp [h, h1]
    | succ n =>
      simp only [List.getD_cons_succ] at h
      simp only [List.set_cons_succ, negCount, List.countP_cons]
      have := @ih n h
      simp only [negCount] at this
      omega

theorem foldl_markStep_length (lbl : ℕ) :
    ∀ (nbrs : List ℕ) (st0 : List ℤ × List ℕ),
      ((nbrs.foldl (markStep lbl) st0).1).length = st0.1.length := by
  intro nbrs
  induction nbrs with
  | nil => intro st0; rfl
  | cons nb rest ih =>
    intro st0
    rw [List.foldl_cons, ih]
    unfold markStep
    split <;> simp

theorem foldl_markStep_pushes_mono (lbl : ℕ) :
    ∀ (nbrs : List ℕ) (st0 : List ℤ × List ℕ) (g : ℕ),
      g ∈ st0.2 → g ∈ (nbrs.foldl (markStep lbl) st0).2 := by
  intro nbrs
  induction nbrs with
  | nil => intro st0 g hg; exact hg
  | cons nb rest ih =>
    intro st0 g hg
    rw [List.foldl_cons]
    refine ih _ g ?_
    unfold markStep
    split
    · exact List.mem_append_left _ hg
    · exact hg

theorem markStep_eq (lbl : ℕ) (st : List ℤ × List ℕ) (nb : ℕ) :
    markStep lbl st nb =
      if st.1.getD nb 0 < 0 then (st.1.set nb (lbl : ℤ), st.2 ++ [nb]) else st := rfl

theorem foldl_markStep_pushes_sub (lbl : ℕ) :
    ∀ (nbrs : List ℕ) (st0 : List ℤ × List ℕ) (g : ℕ),
      g ∈ (nbrs.foldl (markStep lbl) st0).2 → g ∈ st0.2 ∨ g ∈ nbrs := by
  intro nbrs
  induction nbrs with
  | nil => intro st0 g hg; exact Or.inl hg
  | cons nb rest ih =>
    intro st0 g hg
    rw [List.foldl_cons] at hg
    rcases ih _ g hg with h | h
    · rw [markStep_eq] at h
      by_cases hguard : st0.1.getD nb 0 < 0
      · rw [if_pos hguard] at h
        rcases List.mem_append.mp h with h2 | h2
        · exact Or.inl h2
        · have hgnb : g = nb := by simpa using h2
          exact Or.inr (hgnb ▸ List.mem_cons_self nb rest)
      · rw [if_neg hguard] at h
        exact Or.inl h
    · exact Or.inr (List.mem_cons_of_mem _ h)

theorem foldl_markStep_frame (lbl : ℕ) :
    ∀ (nbrs : List ℕ) (st0 : List ℤ × List ℕ) (f : ℕ),
      (nbrs.foldl (markStep lbl) st0).1.getD f 0 = st0.1.getD f 0 ∨
      (f ∈ (nbrs.foldl (markStep lbl) st0).2 ∧ st0.1.getD f 0 < 0 ∧
        (nbrs.foldl (markStep lbl) st0).1.getD f 0 = (lbl : ℤ)) := by
  intro nbrs
  induction nbrs with
  | nil => intro st0 f; exact Or.inl rfl
  | cons nb rest ih =>
    intro st0 f
    rw [List.foldl_cons, markStep_eq]
    by_cases hguard : st0.1.getD nb 0 < 0
    · rw [if_pos hguard]
      rcases ih (st0.1.set nb (lbl : ℤ), st0.2 ++ [nb]) f with h | ⟨hmem, hneg, heq⟩
      · dsimp only at h
        rw [getD_set] at h
        by_cases hf : nb = f ∧ nb < st0.1.length
        · rw [if_pos hf] at h
          refine Or.inr ⟨?_, by rw [← hf.1]; exact hguard, h⟩
          refine foldl_markStep_pushes_mono lbl rest _ f ?_
          exact List.mem_append_right _ (by simp [hf.1])
        · rw [if_neg hf] at h
          exact Or.inl h
      · dsimp only at hneg
        rw [getD_set] at hneg
        by_cases hf : nb = f ∧ nb < st0.1.length
        · rw [if_pos hf] at hneg
          have := Int.ofNat_nonneg lbl
          omega
        · rw [if_neg hf] at hneg
          exact Or.inr ⟨hmem, hneg, heq⟩
    · rw [if_neg hguard]
      rcases ih st0 f with h | ⟨hmem, hneg, heq⟩
      · exact Or.inl h
      · exact Or.inr ⟨hmem, hneg, heq⟩

theorem foldl_markStep_nonneg_mono (lbl : ℕ) (nbrs : List ℕ)
    (st0 : List ℤ × List ℕ) (f : ℕ) (h : 0 ≤ st0.1.getD f 0) :
    0 ≤ (nbrs.foldl (markStep lbl) st0).1.getD f 0 := by
  rcases foldl_markStep_frame lbl nbrs st0 f with heq | ⟨_, hneg, _⟩
  · rwa [heq]
  · omega

theorem foldl_markStep_marks (lbl : ℕ) :
    ∀ (nbrs : List ℕ) (st0 : List ℤ × List ℕ) (g : ℕ), g ∈ nbrs →
      0 ≤ (nbrs.foldl (markStep lbl) st0).1.getD g 0 := by
  intro nbrs
  induction nbrs with
  | nil => intro st0 g hg; simp at hg
  | cons nb rest ih =>
    intro st0 g hg
    rw [List.foldl_cons]
    rcases List.mem_cons.mp hg with rfl | hg2
    · refine foldl_markStep_nonneg_mono lbl rest _ g ?_
      rw [markStep_eq]
      by_cases hguard : st0.1.getD g 0 < 0
      · rw [if_pos hguard]
        dsimp only
        rw [getD_set]
        by_cases hf : g < st0.1.length
        · rw [if_pos ⟨rfl, hf⟩]
          exact Int.ofNat_nonneg lbl
        · exfalso
          rw [List.getD_eq_default _ _ (by simpa using hf)] at hguard
          omega
      · rw [if_neg hguard]
        omega
    · exact ih _ g hg2

theorem foldl_markStep_negCount (lbl : ℕ) :
    ∀ (nbrs : List ℕ) (st0 : List ℤ × List ℕ),
      negCount (nbrs.foldl (markStep lbl) st0).1 +
        (nbrs.foldl (markStep lbl) st0).2.length =
      negCount st0.1 + st0.2.length := by
  intro nbrs
  induction nbrs with
  | nil => intro st0; rfl
  | cons nb rest ih =>
    intro st0
    rw [List.foldl_cons, ih]
    rw [markStep_eq]
    by_cases hguard : st0.1.getD nb 0 < 0
    · rw [if_pos hguard]
      have := negCount_set_nonneg hguard (Int.ofNat_nonneg lbl)
      dsimp only
      simp only [List.length_append, List.length_singleton]
      omega
    · rw [if_neg hguard]

theorem islBfs_length (adj : List (List ℕ)) (lbl : ℕ) :
    ∀ (fuel : ℕ) (q : List ℕ) (ids : List ℤ),
      (islBfs adj lbl fuel q ids).length = ids.length := by
  intro fuel
  induction fuel with
  | zero => intro q ids; rfl
  | succ n ih =>
    intro q ids
    cases q with
    | nil => rfl
    | cons face rest =>
      simp only [islBfs]
      rw [ih]
      rw [markNbrs_eq_foldl, foldl_markStep_length]

theorem islBfs_frame (adj : List (List ℕ)) (lbl : ℕ) :
    ∀ (fuel : ℕ) (q : List ℕ) (ids : List ℤ) (f : ℕ),
      (islBfs adj lbl fuel q ids).getD f 0 = ids.getD f 0 ∨
      (ids.getD f 0 < 0 ∧ (islBfs adj lbl fuel q ids).getD f 0 = (lbl : ℤ)) := by
  intro fuel
  induction fuel with
  | zero => intro q ids f; exact Or.inl rfl
  | succ n ih =>
    intro q ids f
    cases q with
    | nil => exact Or.inl rfl
    | cons face rest =>
      simp only [islBfs]
      rcases ih (rest ++ (markNbrs (adj.getD face []) ids lbl).2)
          (markNbrs (adj.getD face []) ids lbl).1 f with h | ⟨hneg, heq⟩
      · rw [h, markNbrs_eq_foldl]
        rcases foldl_markStep_frame lbl (adj.getD face []) (ids, []) f with
          h2 | ⟨_, hneg2, heq2⟩
        · exact Or.inl h2
        · exact Or.inr ⟨hneg2, heq2⟩
      · rw [markNbrs_eq_foldl] at hneg
        rcases foldl_markStep_frame lbl (adj.getD face []) (ids, []) f with
          h2 | ⟨_, hneg2, heq2⟩
        · rw [h2] at hneg
          exact Or.inr ⟨hneg, heq⟩
        · rw [heq2] at hneg
          have := Int.ofNat_nonneg lbl
          omega

theorem islBfs_preserve (adj : List (List ℕ)) (lbl : ℕ) (fuel : ℕ)
    (q : List ℕ) (ids : List ℤ) (f : ℕ) (h : 0 ≤ ids.getD f 0) :
    (islBfs adj lbl fuel q ids).getD f 0 = ids.getD f 0 := by
  rcases islBfs_frame adj lbl fuel q ids f with h2 | ⟨hneg, _⟩
  · exact h2
  · omega

theorem islBfs_sound (adj : List (List ℕ)) (lbl : ℕ) (A : ℕ → ℕ → Prop)
    (C : ℕ → Prop)
    (hadj : ∀ f g, g ∈ adj.getD f [] → A f g)
    (hC : ∀ f g, C f → A f g → C g) :
    ∀ (fuel : ℕ) (q : List ℕ) (ids : List ℤ),
      (∀ f ∈ q, C f) →
      ∀ f, (islBfs adj lbl fuel q ids).getD f 0 ≠ ids.getD f 0 → C f := by
  intro fuel
  induction fuel with
  | zero => intro q ids _ f hf; exact absurd rfl hf
  | succ n ih =>
    intro q ids hq f hf
    cases q with
    | nil => exact absurd rfl hf
    | cons face rest =>
      simp only [islBfs] at hf
      have hface : C face := hq face (List.mem_cons_self _ _)
      have hpush : ∀ g ∈ (markNbrs (adj.getD face []) ids lbl).2, C g := by
        intro g hg
        rw [markNbrs_eq_foldl] at hg
        rcases foldl_markStep_pushes_sub lbl (adj.getD face []) (ids, []) g hg with
          h | h
        · simp at h
        · exact hC face g hface (hadj face g h)
      by_cases hstep : (markNbrs (adj.getD face []) ids lbl).1.getD f 0 = ids.getD f 0
      · rw [← hstep] at hf
        refine ih (rest ++ (markNbrs (adj.getD face []) ids lbl).2) _ ?_ f hf
        intro g hg
        rcases List.mem_append.mp hg with h | h
        · exact hq g (List.mem_cons_of_mem _ h)
        · exact hpush g h
      · rw [markNbrs_eq_foldl] at hstep
        rcases foldl_markStep_frame lbl (adj.getD face []) (ids, []) f with
          h2 | ⟨hmem, _, _⟩
        · exact absurd h2 hstep
        · exact hpush f (by rwa [markNbrs_eq_foldl])

theorem islBfs_complete (adj : List (List ℕ)) (lbl : ℕ) (A : ℕ → ℕ → Prop)
    (hadj : ∀ f g, g ∈ adj.getD f [] ↔ A f g) :
    ∀ (fuel : ℕ) (q : List ℕ) (ids : List ℤ),
      q.length + negCount ids ≤ fuel →
      (∀ f, ids.getD f 0 = (lbl : ℤ) →
        f ∈ q ∨ (∀ g, A f g → 0 ≤ ids.getD g 0)) →
      ∀ f, (islBfs adj lbl fuel q ids).getD f 0 = (lbl : ℤ) →
        ∀ g, A f g → 0 ≤ (islBfs adj lbl fuel q ids).getD g 0 := by
  intro fuel
  induction fuel with
  | zero =>
    intro q ids hfuel hold f hf g hA
    have hq : q = [] := List.eq_nil_of_length_eq_zero (by omega)
    subst hq
    rcases hold f hf with h | h
    · simp at h
    · exact h g hA
  | succ n ih =>
    intro q ids hfuel hold f hf g hA
    cases q with
    | nil =>
      rcases hold f hf with h | h
      · simp at h
      · exact h g hA
    | cons face rest =>
      simp only [islBfs] at hf ⊢
      have hcount : negCount (markNbrs (adj.getD face []) ids lbl).1 +
          (markNbrs (adj.getD face []) ids lbl).2.length = negCount ids := by
        rw [markNbrs_eq_foldl]
        have := foldl_markStep_negCount lbl (adj.getD face []) (ids, [])
        simpa using this
      have hfuel2 : (rest ++ (markNbrs (adj.getD face []) ids lbl).2).length +
          negCount (markNbrs (adj.getD face []) ids lbl).1 ≤ n := by
        rw [List.length_append]
        simp only [List.length_cons] at hfuel
        omega
      refine ih (rest ++ (markNbrs (adj.getD face []) ids lbl).2)
        (markNbrs (adj.getD face []) ids lbl).1 hfuel2 ?_ f hf g hA
      intro f2 hf2
      rw [markNbrs_eq_foldl] at hf2
      rcases foldl_markStep_frame lbl (adj.getD face []) (ids, []) f2 with
        h2 | ⟨hmem, _, _⟩
      · rw [h2] at hf2
        rcases hold f2 hf2 with hmem2 | hnbrs
        · rcases List.mem_cons.mp hmem2 with rfl | hmem3
          · right
            intro g2 hA2
            rw [markNbrs_eq_foldl]
            exact foldl_markStep_marks lbl _ _ g2 ((hadj f2 g2).mpr hA2)
          · exact Or.inl (List.mem_append_left _ hmem3)
        · right
          intro g2 hA2
          rw [markNbrs_eq_foldl]
          exact foldl_markStep_nonneg_mono lbl _ _ g2 (hnbrs g2 hA2)
      · exact Or.inl (List.mem_append_right _ (by rwa [markNbrs_eq_foldl]))

theorem islConn_closure (topo : TopologyInfo) (seams : List ℕ) (P : ℕ → Prop)
    (hP : ∀ f g, P f → IslAdj topo seams f g → P g) :
    ∀ f g, P f → IslConn topo seams f g → P g := by
  intro f g hf hconn
  induction hconn with
  | refl => exact hf
  | tail hr hadj ih => exact hP _ _ ih hadj

theorem negCount_le_length (ids : List ℤ) : negCount ids ≤ ids.length :=
  List.countP_le_length _

/-- Characterization of one flood fill of `extract_islands`: starting from
an unassigned face `s` with a fresh label, the fill marks exactly the faces
connected to `s` through non-seam interior edges, and changes nothing else. -/
theorem fill_characterization (topo : TopologyInfo) (seams : List ℕ) (F : ℕ)
    (hwf : TopoFacesBound topo F) (lbl s : ℕ) (ids : List ℤ)
    (hlen : ids.length = F) (hsF : s < F) (hsneg : ids.getD s 0 < 0)
    (hclosed : ∀ f g, 0 ≤ ids.getD f 0 → IslAdj topo seams f g →
      0 ≤ ids.getD g 0)
    (hnolbl : ∀ f, f < F → ids.getD f 0 ≠ (lbl : ℤ)) :
    ((islBfs (buildIslandAdj F topo seams) lbl F [s]
        (ids.set s (lbl : ℤ))).length = F) ∧
    (∀ f, f < F →
      ((islBfs (buildIslandAdj F topo seams) lbl F [s]
          (ids.set s (lbl : ℤ))).getD f 0 = (lbl : ℤ) ↔
        IslConn topo seams s f)) ∧
    (∀ f, (islBfs (buildIslandAdj F topo seams) lbl F [s]
        (ids.set s (lbl : ℤ))).getD f 0 = (ids.set s (lbl : ℤ)).getD f 0 ∨
      ((ids.set s (lbl : ℤ)).getD f 0 < 0 ∧
       (islBfs (buildIslandAdj F topo seams) lbl F [s]
          (ids.set s (lbl : ℤ))).getD f 0 = (lbl : ℤ))) := by
  have hadj := buildIslandAdj_mem_iff topo seams F hwf
  set adj := buildIslandAdj F topo seams with hadjdef
  set ids2 := ids.set s (lbl : ℤ) with hids2
  have hids2s : ids2.getD s 0 = (lbl : ℤ) := by
    rw [hids2, getD_set, if_pos ⟨rfl, by omega⟩]
  have hids2other : ∀ f, f ≠ s → ids2.getD f 0 = ids.getD f 0 := by
    intro f hfs
    rw [hids2, getD_set, if_neg (by tauto)]
  have hlen2 : ids2.length = F := by rw [hids2, List.length_set, hlen]
  have hold : ∀ f, ids2.getD f 0 = (lbl : ℤ) →
      f ∈ [s] ∨ (∀ g, IslAdj topo seams f g → 0 ≤ ids2.getD g 0) := by
    intro f hf
    by_cases hfs : f = s
    · exact Or.inl (by simp [hfs])
    · rw [hids2other f hfs] at hf
      by_cases hfF : f < F
      · exact absurd hf (hnolbl f hfF)
      · right
        intro g hA
        exact absurd (islAdj_lt hwf hA).1 hfF
  have hfuel : ([s] : List ℕ).length + negCount ids2 ≤ F := by
    have h1 : negCount ids2 + 1 = negCount ids := by
      rw [hids2]
      exact negCount_set_nonneg hsneg (Int.ofNat_nonneg lbl)
    have h2 : negCount ids ≤ F := hlen ▸ negCount_le_length ids
    simp only [List.length_singleton]
    omega
  have hcomplete := islBfs_complete adj lbl (IslAdj topo seams) hadj F [s] ids2
    hfuel hold
  have hressl : (islBfs adj lbl F [s] ids2).getD s 0 = (lbl : ℤ) := by
    rcases islBfs_frame adj lbl F [s] ids2 s with h | ⟨_, h⟩
    · rw [h, hids2s]
    · exact h
  refine ⟨by rw [islBfs_length, hlen2], ?_, islBfs_frame adj lbl F [s] ids2⟩
  intro f hfF
  constructor
  · intro hf
    rcases islBfs_frame adj lbl F [s] ids2 f with h | ⟨hneg, _⟩
    · rw [hf] at h
      by_cases hfs : f = s
      · exact hfs ▸ Relation.ReflTransGen.refl
      · rw [hids2other f hfs] at h
        exact absurd h.symm (hnolbl f hfF)
    · refine islBfs_sound adj lbl (IslAdj topo seams) (IslConn topo seams s)
        (fun f g => (hadj f g).mp) ?_ F [s] ids2 ?_ f ?_
      · intro a b ha hab
        exact Relation.ReflTransGen.tail ha hab
      · intro g hg
        have : g = s := by simpa using hg
        exact this ▸ Relation.ReflTransGen.refl
      · omega
  · intro hconn
    induction hconn with
    | refl => exact hressl
    | tail hsb hAbc ih =>
      rename_i b c
      have hbF : b < F := (islAdj_lt hwf hAbc).1
      have hcF : c < F := (islAdj_lt hwf hAbc).2
      have hblbl : (islBfs adj lbl F [s] ids2).getD b 0 = (lbl : ℤ) := ih hbF
      have hcpos : 0 ≤ (islBfs adj lbl F [s] ids2).getD c 0 :=
        hcomplete b hblbl c hAbc
      rcases islBfs_frame adj lbl F [s] ids2 c with h | ⟨_, h⟩
      · rw [h] at hcpos ⊢
        by_cases hcs : c = s
        · rw [hcs, hids2s]
        · rw [hids2other c hcs] at hcpos ⊢
          exfalso
          have hconn_sc : IslConn topo seams s c :=
            Relation.ReflTransGen.tail hsb hAbc
          have hmarked_s : 0 ≤ ids.getD s 0 := by
            refine islConn_closure topo seams (fun x => 0 ≤ ids.getD x 0)
              hclosed c s hcpos (islConn_symm hconn_sc)
          omega
      · exact h

/-- First face carrying a given island id (the face that started the fill). -/
def isMinRep (ids : List ℤ) (v : ℤ) (f : ℕ) : Prop :=
  ids.getD f 0 = v ∧ ∀ x, x < f → ids.getD x 0 ≠ v

instance (ids : List ℤ) (v : ℤ) (f : ℕ) : Decidable (isMinRep ids v f) := by
  unfold isMinRep; infer_instance

theorem isMinRep_unique {ids : List ℤ} {v : ℤ} {f g : ℕ}
    (hf : isMinRep ids v f) (hg : isMinRep ids v g) : f = g := by
  rcases Nat.lt_trichotomy f g with h | h | h
  · exact absurd hf.1 (hg.2 f h)
  · exact h
  · exact absurd hg.1 (hf.2 g h)

/-- One step of the outer island loop of `extract_islands`. -/
def extractStep (adj : List (List ℕ)) (F : ℕ) (st : List ℤ × ℕ)
    (start : ℕ) : List ℤ × ℕ :=
  if 0 ≤ st.1.getD start 0 then st
  else (islBfs adj st.2 F [start] (st.1.set start (st.2 : ℤ)), st.2 + 1)

theorem extract_islands_eq_foldl (mesh : Mesh) (topo : TopologyInfo)
    (seams : List ℕ) :
    extract_islands mesh topo seams =
      (List.range mesh.triangles.length).foldl
        (extractStep (buildIslandAdj mesh.triangles.length topo seams)
          mesh.triangles.length)
        (List.replicate mesh.triangles.length (-1 : ℤ), 0) := rfl

/-- Invariant of the outer loop of `extract_islands` after the first `k`
start faces have been processed. -/
structure OuterInv (topo : TopologyInfo) (seams : List ℕ) (F k : ℕ)
    (st : List ℤ × ℕ) : Prop where
  len : st.1.length = F
  prefixAssigned : ∀ f, f < k → 0 ≤ st.1.getD f 0
  ltCnt : ∀ f, f < F → st.1.getD f 0 < (st.2 : ℤ)
  closed : ∀ f g, 0 ≤ st.1.getD f 0 → IslAdj topo seams f g →
    0 ≤ st.1.getD g 0
  sameConn : ∀ f g, f < F → g < F → 0 ≤ st.1.getD f 0 →
    st.1.getD f 0 = st.1.getD g 0 → IslConn topo seams f g
  adjSame : ∀ f g, IslAdj topo seams f g → 0 ≤ st.1.getD f 0 →
    st.1.getD f 0 = st.1.getD g 0
  surj : ∀ j : ℕ, j < st.2 → ∃ f, f < k ∧ isMinRep st.1 (j : ℤ) f
  minRepMono : ∀ i j fi fj : ℕ, i < j → j < st.2 →
    isMinRep st.1 (i : ℤ) fi → isMinRep st.1 (j : ℤ) fj → fi < fj

theorem outerInv_init (topo : TopologyInfo) (seams : List ℕ) (F : ℕ)
    (hwf : TopoFacesBound topo F) :
    OuterInv topo seams F 0 (List.replicate F (-1 : ℤ), 0) := by
  have hget : ∀ f : ℕ, f < F → (List.replicate F (-1 : ℤ)).getD f 0 = -1 := by
    intro f hf
    rw [List.getD_eq_getElem _ _ (by simpa using hf)]
    simp
  refine ⟨by simp, ?_, ?_, ?_, ?_, ?_, ?_, ?_⟩
  · intro f hf; omega
  · intro f hf
    show (List.replicate F (-1 : ℤ)).getD f 0 < ((0 : ℕ) : ℤ)
    rw [hget f hf]
    simp
  · intro f g hpos hadj
    exfalso
    have hfF := (islAdj_lt hwf hadj).1
    have := hget f hfF
    simp only [] at hpos
    omega
  · intro f g hf hg hpos heq
    exfalso
    have := hget f hf
    simp only [] at hpos
    omega
  · intro f g hadj hpos
    exfalso
    have hfF := (islAdj_lt hwf hadj).1
    have := hget f hfF
    simp only [] at hpos
    omega
  · intro j hj
    exact absurd hj (by simp)
  · intro i j fi fj hij hj
    exact absurd hj (by simp)

theorem outerInv_step (topo : TopologyInfo) (seams : List ℕ) (F k : ℕ)
    (hwf : TopoFacesBound topo F) (st : List ℤ × ℕ)
    (hinv : OuterInv topo seams F k st) (hkF : k < F) :
    OuterInv topo seams F (k + 1)
      (extractStep (buildIslandAdj F topo seams) F st k) := by
  unfold extractStep
  by_cases hguard : 0 ≤ st.1.getD k 0
  · rw [if_pos hguard]
    refine ⟨hinv.len, ?_, hinv.ltCnt, hinv.closed, hinv.sameConn, hinv.adjSame,
      ?_, hinv.minRepMono⟩
    · intro f hf
      rcases Nat.lt_or_ge f k with h | h
      · exact hinv.prefixAssigned f h
      · have hfk : f = k := by omega
        exact hfk ▸ hguard
    · intro j hj
      obtain ⟨f, hfk, hmr⟩ := hinv.surj j hj
      exact ⟨f, by omega, hmr⟩
  · rw [if_neg hguard]
    push_neg at hguard
    set cnt := st.2 with hcnt
    obtain ⟨hreslen, hiff, hframe⟩ :=
      fill_characterization topo seams F hwf cnt k st.1 hinv.len hkF hguard
        hinv.closed (fun f hf => by have := hinv.ltCnt f hf; omega)
    set res := islBfs (buildIslandAdj F topo seams) cnt F [k]
      (st.1.set k (cnt : ℤ)) with hres
    have hids2 : ∀ f, f ≠ k →
        (st.1.set k (cnt : ℤ)).getD f 0 = st.1.getD f 0 := by
      intro f hfk
      rw [getD_set, if_neg (fun h => hfk h.1.symm)]
    have hids2k : (st.1.set k (cnt : ℤ)).getD k 0 = (cnt : ℤ) := by
      rw [getD_set, if_pos ⟨rfl, by rw [hinv.len]; omega⟩]
    have hkeep : ∀ f, f ≠ k → 0 ≤ st.1.getD f 0 →
        res.getD f 0 = st.1.getD f 0 := by
      intro f hfk hpos
      rcases hframe f with h | ⟨hneg, _⟩
      · rw [h, hids2 f hfk]
      · rw [hids2 f hfk] at hneg
        omega
    have hresk : res.getD k 0 = (cnt : ℤ) :=
      (hiff k hkF).mpr Relation.ReflTransGen.refl
    have htrans : ∀ (x : ℕ) (v : ℤ), 0 ≤ v → v ≠ (cnt : ℤ) →
        (res.getD x 0 = v ↔ st.1.getD x 0 = v) := by
      intro x v hv hvc
      constructor
      · intro hx
        rcases hframe x with h | ⟨_, heq⟩
        · have h2 : (st.1.set k (cnt : ℤ)).getD x 0 = v := h.symm.trans hx
          by_cases hxk : x = k
          · subst hxk
            rw [hids2k] at h2
            exact absurd h2.symm hvc
          · rw [hids2 x hxk] at h2
            exact h2
        · rw [hx] at heq
          exact absurd heq hvc
      · intro hx
        have hxk : x ≠ k := by
          intro hh
          subst hh
          rw [hx] at hguard
          omega
        rw [hkeep x hxk (hx ▸ hv), hx]
    have hminrep_trans : ∀ (v : ℕ), (v : ℤ) ≠ (cnt : ℤ) → ∀ f,
        (isMinRep res (v : ℤ) f ↔ isMinRep st.1 (v : ℤ) f) := by
      intro v hvc f
      unfold isMinRep
      constructor
      · rintro ⟨h1, h2⟩
        refine ⟨(htrans f _ (Int.ofNat_nonneg v) hvc).mp h1, ?_⟩
        intro x hx hxv
        exact h2 x hx ((htrans x _ (Int.ofNat_nonneg v) hvc).mpr hxv)
      · rintro ⟨h1, h2⟩
        refine ⟨(htrans f _ (Int.ofNat_nonneg v) hvc).mpr h1, ?_⟩
        intro x hx hxv
        exact h2 x hx ((htrans x _ (Int.ofNat_nonneg v) hvc).mp hxv)
    have hminrep_k : isMinRep res (cnt : ℤ) k := by
      refine ⟨hresk, ?_⟩
      intro x hx
      have hxpos := hinv.prefixAssigned x hx
      have hxk : x ≠ k := by omega
      rw [hkeep x hxk hxpos]
      have := hinv.ltCnt x (by omega)
      omega
    refine ⟨hreslen, ?_, ?_, ?_, ?_, ?_, ?_, ?_⟩
    · intro f hf
      show 0 ≤ res.getD f 0
      rcases Nat.lt_or_ge f k with h | h
      · have hpos := hinv.prefixAssigned f h
        rw [hkeep f (by omega) hpos]
        exact hpos
      · have hfk : f = k := by omega
        rw [hfk, hresk]
        exact Int.ofNat_nonneg cnt
    · intro f hf
      show res.getD f 0 < ((cnt + 1 : ℕ) : ℤ)
      rcases hframe f with h | ⟨_, heq⟩
      · rw [h]
        by_cases hfk : f = k
        · rw [hfk, hids2k]
          push_cast
          omega
        · rw [hids2 f hfk]
          have := hinv.ltCnt f hf
          push_cast
          omega
      · rw [heq]
        push_cast
        omega
    · intro f g hpos hadj
      replace hpos : 0 ≤ res.getD f 0 := hpos
      show 0 ≤ res.getD g 0
      have hfF := (islAdj_lt hwf hadj).1
      have hgF := (islAdj_lt hwf hadj).2
      by_cases hfc : res.getD f 0 = (cnt : ℤ)
      · have hconnf := (hiff f hfF).mp hfc
        have hconng := Relation.ReflTransGen.tail hconnf hadj
        rw [(hiff g hgF).mpr hconng]
        exact Int.ofNat_nonneg cnt
      · have hst : st.1.getD f 0 = res.getD f 0 :=
          ((htrans f _ hpos hfc).mp rfl)
        have hgpos := hinv.closed f g (by omega) hadj
        have hgk : g ≠ k := by
          intro hh
          rw [hh] at hgpos
          omega
        rw [hkeep g hgk hgpos]
        exact hgpos
    · intro f g hfF hgF hpos heq
      replace hpos : 0 ≤ res.getD f 0 := hpos
      replace heq : res.getD f 0 = res.getD g 0 := heq
      by_cases hfc : res.getD f 0 = (cnt : ℤ)
      · have hconnf := (hiff f hfF).mp hfc
        have hconng := (hiff g hgF).mp (heq ▸ hfc)
        exact Relation.ReflTransGen.trans (islConn_symm hconnf) hconng
      · have hstf : st.1.getD f 0 = res.getD f 0 :=
          (htrans f _ hpos hfc).mp rfl
        have hstg : st.1.getD g 0 = res.getD f 0 :=
          (htrans g _ hpos hfc).mp heq.symm
        exact hinv.sameConn f g hfF hgF (by omega) (by omega)
    · intro f g hadj hpos
      replace hpos : 0 ≤ res.getD f 0 := hpos
      show res.getD f 0 = res.getD g 0
      have hfF := (islAdj_lt hwf hadj).1
      have hgF := (islAdj_lt hwf hadj).2
      by_cases hfc : res.getD f 0 = (cnt : ℤ)
      · have hconnf := (hiff f hfF).mp hfc
        have hconng := Relation.ReflTransGen.tail hconnf hadj
        rw [hfc, (hiff g hgF).mpr hconng]
      · have hstf : st.1.getD f 0 = res.getD f 0 :=
          (htrans f _ hpos hfc).mp rfl
        have hsame := hinv.adjSame f g hadj (by omega)
        have hgk : g ≠ k := by
          intro hh
          subst hh
          rw [hsame] at hstf
          omega
        rw [hkeep g hgk (by omega), ← hsame, hstf]
    · intro j hj
      replace hj : j < cnt + 1 := hj
      rcases Nat.lt_or_ge j cnt with h | h
      · obtain ⟨f, hfk, hmr⟩ := hinv.surj j h
        refine ⟨f, by omega, ?_⟩
        rw [hminrep_trans j (by omega)]
        exact hmr
      · have hjc : j = cnt := by omega
        exact ⟨k, by omega, hjc ▸ hminrep_k⟩
    · intro i j fi fj hij hj hmi hmj
      replace hj : j < cnt + 1 := hj
      replace hmi : isMinRep res (i : ℤ) fi := hmi
      replace hmj : isMinRep res (j : ℤ) fj := hmj
      rcases Nat.lt_or_ge j cnt with h | h
      · rw [hminrep_trans j (by omega)] at hmj
        rw [hminrep_trans i (by omega)] at hmi
        exact hinv.minRepMono i j fi fj hij h hmi hmj
      · have hjc : j = cnt := by omega
        subst hjc
        have hfjk : fj = k := isMinRep_unique hmj hminrep_k
        rw [hminrep_trans i (by omega)] at hmi
        obtain ⟨f, hfk, hmr⟩ := hinv.surj i hij
        have hfif : fi = f := isMinRep_unique hmi hmr
        omega

theorem extract_islands_inv (mesh : Mesh) (topo : TopologyInfo) (seams : List ℕ)
    (hwf : TopoFacesBound topo mesh.triangles.length) :
    OuterInv topo seams mesh.triangles.length mesh.triangles.length
      (extract_islands mesh topo seams) := by
  rw [extract_islands_eq_foldl]
  have main : ∀ k, k ≤ mesh.triangles.length →
      OuterInv topo seams mesh.triangles.length k
        ((List.range k).foldl
          (extractStep (buildIslandAdj mesh.triangles.length topo seams)
            mesh.triangles.length)
          (List.replicate mesh.triangles.length (-1 : ℤ), 0)) := by
    intro k
    induction k with
    | zero =>
      intro _
      simpa using outerInv_init topo seams mesh.triangles.length hwf
    | succ n ih =>
      intro hk
      rw [List.range_succ, List.foldl_append, List.foldl_cons, List.foldl_nil]
      exact outerInv_step topo seams mesh.triangles.length n hwf _
        (ih (by omega)) (by omega)
  exact main mesh.triangles.length le_rfl

/-- Property stated by claim C6: every face gets exactly one island id in
`[0, numIslands)`; two faces share an id exactly when they are connected
through non-seam interior edges; and the first faces of the islands (the
faces that started the flood fills) appear in increasing order of id. -/
def IslandSpec (mesh : Mesh) (topo : TopologyInfo) (seams : List ℕ) : Prop :=
  (extract_islands mesh topo seams).1.length = mesh.triangles.length ∧
  (∀ f, f < mesh.triangles.length →
    0 ≤ (extract_islands mesh topo seams).1.getD f 0 ∧
    (extract_islands mesh topo seams).1.getD f 0 <
      ((extract_islands mesh topo seams).2 : ℤ)) ∧
  (∀ f g, f < mesh.triangles.length → g < mesh.triangles.length →
    ((extract_islands mesh topo seams).1.getD f 0 =
      (extract_islands mesh topo seams).1.getD g 0 ↔
      IslConn topo seams f g)) ∧
  (∀ j : ℕ, j < (extract_islands mesh topo seams).2 →
    ∃ f, f < mesh.triangles.length ∧
      isMinRep (extract_islands mesh topo seams).1 (j : ℤ) f) ∧
  (∀ i j fi fj : ℕ, i < j → j < (extract_islands mesh topo seams).2 →
    isMinRep (extract_islands mesh topo seams).1 (i : ℤ) fi →
    isMinRep (extract_islands mesh topo seams).1 (j : ℤ) fj → fi < fj)

/-- Claim C6: `extract_islands` assigns every face exactly one island id in
`[0, numIslands)`, ids are shared exactly along non-seam interior-edge
connectivity, and ids increase with the lowest-index face of each island. -/
theorem extract_islands_satisfies_spec (mesh : Mesh) (topo : TopologyInfo)
    (seams : List ℕ) (hwf : TopoFacesBound topo mesh.triangles.length) :
    IslandSpec mesh topo seams := by
  have hinv := extract_islands_inv mesh topo seams hwf
  refine ⟨hinv.len, ?_, ?_, ?_, hinv.minRepMono⟩
  · intro f hf
    exact ⟨hinv.prefixAssigned f hf, hinv.ltCnt f hf⟩
  · intro f g hfF hgF
    constructor
    · intro heq
      exact hinv.sameConn f g hfF hgF (hinv.prefixAssigned f hfF) heq
    · intro hconn
      refine islConn_closure topo seams
        (fun x => (extract_islands mesh topo seams).1.getD f 0 =
          (extract_islands mesh topo seams).1.getD x 0) ?_ f g rfl hconn
      intro a b ha hab
      rw [ha]
      exact hinv.adjSame a b hab (ha ▸ hinv.prefixAssigned f hfF)
  · intro j hj
    obtain ⟨f, hfk, hmr⟩ := hinv.surj j hj
    exact ⟨f, hfk, hmr⟩

/-- Witness for claim C6 on the concrete mesh `meshD` with the seam set the
source computes for it. -/
theorem extract_islands_satisfies_spec_witness :
    TopoFacesBound (build_topology meshD) meshD.triangles.length ∧
    IslandSpec meshD (build_topology meshD) [7] :=
  ⟨by decide,
    extract_islands_satisfies_spec meshD (build_topology meshD) [7] (by decide)⟩

/-! ## LSCM (lscm.cpp) -/

/-- Largest single-precision float, the sentinel used by the source. -/
def FLT_MAX : ℚ := 2 ^ 128 - 2 ^ 104

def min_float (a b : ℚ) : ℚ := min a b

def max_float (a b : ℚ) : ℚ := max a b

def getTri (mesh : Mesh) (f : ℕ) : ℕ × ℕ × ℕ := mesh.triangles.getD f (0, 0, 0)

/-- Dense local indexing of an island's vertices in first-encounter order
(`global_to_local` / `local_to_global` of both lscm.cpp and unwrap.cpp). -/
def islandLocals (mesh : Mesh) (faces : List ℕ) : List ℕ :=
  faces.foldl
    (fun l2g f =>
      [(getTri mesh f).1, (getTri mesh f).2.1, (getTri mesh f).2.2].foldl
        (fun l2g gv => if gv ∈ l2g then l2g else l2g ++ [gv]) l2g)
    []

/-- Local index of a global vertex (the value stored in `global_to_local`). -/
def globalToLocal (l2g : List ℕ) (gv : ℕ) : ℕ := l2g.indexOf gv

/-- All canonical edge emissions of the island's faces
(the increments of `edge_count` in `find_boundary_vertices`). -/
def islandEdgeEmissions (mesh : Mesh) (faces : List ℕ) : List (ℕ × ℕ) :=
  faces.flatMap fun f => triEdges (getTri mesh f)

/-- Boundary vertices of an island: endpoints of edges counted exactly once,
as the ascending iteration of the `std::set` in `find_boundary_vertices`. -/
def find_boundary_vertices (mesh : Mesh) (faces : List ℕ) : List ℕ :=
  let ems := islandEdgeEmissions mesh faces
  (List.range ((ems.foldl (fun m e => max m (max e.1 e.2)) 0) + 1)).filter
    fun v => decide (∃ e ∈ ems, countE ems e = 1 ∧ (e.1 = v ∨ e.2 = v))

/-- Ordered index pairs (i, j) with i < j, in the iteration order of the
double loop that picks the two pins farthest apart. -/
def pinPairs (n : ℕ) : List (ℕ × ℕ) :=
  (List.range n).flatMap fun i =>
    ((List.range n).filter fun j => i < j).map fun j => (i, j)

/-- The double loop over candidate vertices: keep the pair of maximal
distance (the source compares `vec3_length`; the embedding compares squared
distances, which orders identically). -/
def choosePinsFrom (mesh : Mesh) (cand : List ℕ) : ℕ × ℕ :=
  let fin := (pinPairs cand.length).foldl
    (fun (best : ℕ × ℕ × ℚ) ij =>
      let vi := cand.getD ij.1 0
      let vj := cand.getD ij.2 0
      let d := sqDist (get_vertex_position mesh vi) (get_vertex_position mesh vj)
      if best.2.2 < d then (vi, vj, d) else best)
    (cand.getD 0 0, cand.getD 1 0, (0 : ℚ))
  (fin.1, fin.2.1)

/-- STEP 3 of `lscm_parameterize`: pin two boundary vertices when at least
two exist, otherwise two island vertices, maximally far apart. -/
def choosePins (mesh : Mesh) (faces : List ℕ) (l2g : List ℕ) : ℕ × ℕ :=
  let b := find_boundary_vertices mesh faces
  if 2 ≤ b.length then choosePinsFrom mesh b else choosePinsFrom mesh l2g

/-- Sparse-matrix triplet (Eigen::Triplet). -/
structure Triplet where
  r : ℕ
  c : ℕ
  v : ℚ
deriving DecidableEq, Repr

/-- The eight triplets a directed triangle edge contributes. -/
def edgeBlock (la lb : ℕ) (dx dy area : ℚ) : List Triplet :=
  [⟨2*la,     2*lb,     area * dx⟩,
   ⟨2*la,     2*lb + 1, area * dy⟩,
   ⟨2*la + 1, 2*lb,     area * dy⟩,
   ⟨2*la + 1, 2*lb + 1, area * (-dx)⟩,
   ⟨2*la,     2*la,     -(area * dx)⟩,
   ⟨2*la,     2*la + 1, -(area * dy)⟩,
   ⟨2*la + 1, 2*la,     -(area * dy)⟩,
   ⟨2*la + 1, 2*la + 1, -(area * (-dx))⟩]

/-- `add_triangle_contribution` of lscm.cpp: local 2D frame, area test,
and the three directed-edge blocks. -/
def add_triangle_contribution (lv0 lv1 lv2 : ℕ) (p0 p1 p2 : Vec3) :
    List Triplet :=
  let e1 := vec3_sub p1 p0
  let e2 := vec3_sub p2 p0
  let normal := vec3_normalize (vec3_cross e1 e2)
  let u_axis := vec3_normalize e1
  let v_axis := vec3_cross normal u_axis
  let q1x := vec3_dot e1 u_axis
  let q1y := vec3_dot e1 v_axis
  let q2x := vec3_dot e2 u_axis
  let q2y := vec3_dot e2 v_axis
  let area := (1 / 2) * |q1x * q2y - q1y * q2x|
  if area < 1 / 10 ^ 10 then []
  else
    edgeBlock lv0 lv1 (q1x - 0) (q1y - 0) area ++
    edgeBlock lv1 lv2 (q2x - q1x) (q2y - q1y) area ++
    edgeBlock lv2 lv0 (0 - q2x) (0 - q2y) area

/-- STEP 2 of `lscm_parameterize`: accumulate the triplets of all faces. -/
def assembleTriplets (mesh : Mesh) (faces : List ℕ) (l2g : List ℕ) :
    List Triplet :=
  faces.foldl
    (fun ts f =>
      let t := getTri mesh f
      ts ++ add_triangle_contribution
        (globalToLocal l2g t.1) (globalToLocal l2g t.2.1) (globalToLocal l2g t.2.2)
        (get_vertex_position mesh t.1) (get_vertex_position mesh t.2.1)
        (get_vertex_position mesh t.2.2))
    []

/-- The large pin weight (`1e10`). -/
def pin_weight : ℚ := 10 ^ 10

/-- The four diagonal pin triplets appended to the system. -/
def pinTriplets (pin1 pin2 : ℕ) : List Triplet :=
  [⟨2*pin1,     2*pin1,     pin_weight⟩,
   ⟨2*pin1 + 1, 2*pin1 + 1, pin_weight⟩,
   ⟨2*pin2,     2*pin2,     pin_weight⟩,
   ⟨2*pin2 + 1, 2*pin2 + 1, pin_weight⟩]

/-- `setFromTriplets`: duplicate entries at the same position sum. -/
def tripletMatrix (ts : List Triplet) (i j : ℕ) : ℚ :=
  ts.foldl (fun s t => if t.r = i ∧ t.c = j then s + t.v else s) 0

/-- The right-hand side after the four writes `b(2*pin1)=0, b(2*pin1+1)=0,
b(2*pin2)=1e10, b(2*pin2+1)=0` on the zero vector (later writes win). -/
def lscmRhs (pin1 pin2 : ℕ) : ℕ → ℚ := fun k =>
  if k = 2*pin2 then 1 * pin_weight
  else if k = 2*pin2 + 1 then 0 * pin_weight
  else if k = 2*pin1 then 0 * pin_weight
  else if k = 2*pin1 + 1 then 0 * pin_weight
  else 0

def dotL (a b : List ℚ) : ℚ := (a.zip b).foldl (fun s p => s + p.1 * p.2) 0

/-- Exact Gaussian elimination on an augmented system (the model of
Eigen's SparseLU): fails exactly when the matrix is singular, which is the
failure mode the specification ascribes to the solver. -/
def gaussSolve : ℕ → List (List ℚ) → Option (List ℚ)
  | 0, _ => some []
  | n + 1, rows =>
    match rows.findIdx? (fun r => decide (¬ r.headD 0 = 0)) with
    | none => none
    | some i =>
      let piv := rows.getD i []
      let p0 := piv.headD 0
      let pr := piv.tail
      let rest := (rows.eraseIdx i).map fun r =>
        ((r.tail).zip pr).map fun q => q.1 - (r.headD 0 / p0) * q.2
      match gaussSolve n rest with
      | none => none
      | some xs => some (((pr.getD n 0 - dotL (pr.take n) xs) / p0) :: xs)

/-- STEP 5 of lscm.cpp (`normalize_uvs_to_unit_square`): bounding box with
the `1e-6` range floor, then per-axis rescale. -/
def normalize_uvs_to_unit_square (uvs : List (ℚ × ℚ)) : List (ℚ × ℚ) :=
  if uvs.length = 0 then uvs
  else
    let minU := uvs.foldl (fun m p => min_float m p.1) FLT_MAX
    let maxU := uvs.foldl (fun m p => max_float m p.1) (-FLT_MAX)
    let minV := uvs.foldl (fun m p => min_float m p.2) FLT_MAX
    let maxV := uvs.foldl (fun m p => max_float m p.2) (-FLT_MAX)
    let uRange := if maxU - minU < 1 / 1000000 then 1 else maxU - minU
    let vRange := if maxV - minV < 1 / 1000000 then 1 else maxV - minV
    uvs.map fun p => ((p.1 - minU) / uRange, (p.2 - minV) / vRange)

/-- `lscm_parameterize`: local indexing, assembly, pinning, solve,
normalization; `none` models the NULL returns of the source. -/
def lscm_parameterize (mesh : Mesh) (faces : List ℕ) : Option (List (ℚ × ℚ)) :=
  if faces.length = 0 then none
  else
    let l2g := islandLocals mesh faces
    let n := l2g.length
    if n < 3 then none
    else
      let ts := assembleTriplets mesh faces l2g
      let pins := choosePins mesh faces l2g
      let pin1 := globalToLocal l2g pins.1
      let pin2 := globalToLocal l2g pins.2
      let tsAll := ts ++ pinTriplets pin1 pin2
      let rows := (List.range (2 * n)).map fun i =>
        ((List.range (2 * n)).map fun j => tripletMatrix tsAll i j) ++
          [lscmRhs pin1 pin2 i]
      match gaussSolve (2 * n) rows with
      | none => none
      | some x =>
        some (normalize_uvs_to_unit_square
          ((List.range n).map fun i => (x.getD (2 * i) 0, x.getD (2 * i + 1) 0)))

/-! ## Packing (part_003 packing.cpp) -/

/-- Per-island bounding-box record (struct `Island`). -/
structure IslandBox where
  id : ℕ
  min_u : ℚ
  max_u : ℚ
  min_v : ℚ
  max_v : ℚ
  width : ℚ
  height : ℚ
  target_x : ℚ
  target_y : ℚ
  vertex_indices : List ℕ
deriving Repr, DecidableEq

instance : Inhabited IslandBox :=
  ⟨⟨0, 0, 0, 0, 0, 0, 0, 0, 0, []⟩⟩

/-- STEP 1 of `pack_uv_islands` for one face: assign each new vertex to the
first island that reaches it and grow that island's bounding box. -/
def collectStep (mesh : Mesh) (result : UnwrapResult) (uv : ℕ → ℚ × ℚ)
    (st : List IslandBox × List ℤ) (f : ℕ) : List IslandBox × List ℤ :=
  let islandId := result.face_island_ids.getD f (-1)
  if islandId < 0 ∨ result.num_islands ≤ islandId then st
  else
    let t := getTri mesh f
    [t.1, t.2.1, t.2.2].foldl
      (fun st v =>
        if st.2.getD v 0 = -1 then
          let idx := islandId.toNat
          let box := st.1.getD idx default
          let box2 : IslandBox :=
            { box with
              vertex_indices := box.vertex_indices ++ [v]
              min_u := min_float box.min_u (uv v).1
              max_u := max_float box.max_u (uv v).1
              min_v := min_float box.min_v (uv v).2
              max_v := max_float box.max_v (uv v).2 }
          (st.1.set idx box2, st.2.set v islandId)
        else st)
      st

/-- Bounding boxes and vertex lists of all islands (STEP 1). -/
def collectIslands (mesh : Mesh) (result : UnwrapResult) (uv : ℕ → ℚ × ℚ) :
    List IslandBox :=
  let init := (List.range result.num_islands.toNat).map fun i =>
    ({ id := i, min_u := FLT_MAX, max_u := -FLT_MAX, min_v := FLT_MAX,
       max_v := -FLT_MAX, width := 0, height := 0, target_x := 0,
       target_y := 0, vertex_indices := [] } : IslandBox)
  ((List.range mesh.triangles.length).foldl (collectStep mesh result uv)
    (init, List.replicate mesh.vertices.length (-1 : ℤ))).1

/-- Widths and heights with the margin, floored at the margin. -/
def applySizes (margin : ℚ) (boxes : List IslandBox) : List IslandBox :=
  boxes.map fun b =>
    { b with
      width := if b.max_u - b.min_u + margin < margin then margin
               else b.max_u - b.min_u + margin
      height := if b.max_v - b.min_v + margin < margin then margin
                else b.max_v - b.min_v + margin }

/-- The comparator passed to `std::sort` in STEP 2 (`a.height > b.height`,
and nothing else: no id tie-break). -/
def packCmp (a b : IslandBox) : Bool := decide (b.height < a.height)

/-- The weak order induced by the comparator: `a` may precede `b` exactly
when the comparator does not demand `b` before `a`.  `std::sort` guarantees
only a permutation ordered by this relation; the order of equal-height
islands is unspecified.  The embedding runs a stable insertion sort, which
fixes one admissible outcome; the theorems assert only the
comparator-induced postcondition, which every outcome satisfies. -/
def packOrder (a b : IslandBox) : Prop :=
  b.height ≤ a.height

instance : DecidableRel packOrder := fun a b => by
  unfold packOrder; infer_instance

/-- `std::sort`'s postcondition for the source comparator: a permutation
of the input in which no element strictly precedes, under the comparator,
an element placed before it. -/
def AdmissibleSortOf (l sorted : List IslandBox) : Prop :=
  sorted.Perm l ∧ sorted.Pairwise (fun x y => packCmp y x = false)

/-- Accumulator of the shelf loop (STEP 3). -/
structure ShelfAcc where
  placed : List IslandBox
  sx : ℚ
  sy : ℚ
  sh : ℚ
  mw : ℚ

/-- One island of the shelf loop: start a new shelf when `x + w` would
exceed 1 and `x > 0`; place at the shelf cursor; advance x; track the
maximal x advance (the conditional mutation of the source is folded into
the two branches). -/
def shelfStep (acc : ShelfAcc) (isl : IslandBox) : ShelfAcc :=
  if 1 < acc.sx + isl.width ∧ 0 < acc.sx then
    { placed := acc.placed ++
        [{ isl with target_x := 0, target_y := acc.sy + acc.sh }]
      sx := 0 + isl.width
      sy := acc.sy + acc.sh
      sh := isl.height
      mw := max_float acc.mw (0 + isl.width) }
  else
    { placed := acc.placed ++
        [{ isl with target_x := acc.sx, target_y := acc.sy }]
      sx := acc.sx + isl.width
      sy := acc.sy
      sh := acc.sh
      mw := max_float acc.mw (acc.sx + isl.width) }

/-- STEP 3: the shelf loop over the sorted islands. -/
def shelfLoop (sorted : List IslandBox) : ShelfAcc :=
  sorted.foldl shelfStep ⟨[], 0, 0, (sorted.headD default).height, 0⟩

/-- STEP 4: translate every island's vertices to its packed position. -/
def applyOffsets (uv : ℕ → ℚ × ℚ) (placed : List IslandBox) : ℕ → ℚ × ℚ :=
  placed.foldl
    (fun uv isl =>
      isl.vertex_indices.foldl
        (fun uv v => fun w =>
          if w = v then
            ((uv v).1 + (isl.target_x - isl.min_u),
             (uv v).2 + (isl.target_y - isl.min_v))
          else uv w)
        uv)
    uv

/-- STEP 5: the source computes `scale = 1/max(max_width, total_height)` and
rescales when `scale < 1`; over the exact reals with a nonnegative maximum
this test is `1 < max` (at `max = 0` the C division yields +infinity, which
is not `< 1`), so the embedding divides exactly when the maximum exceeds 1. -/
def applyGlobalFit (uv : ℕ → ℚ × ℚ) (numVertices : ℕ) (mw th : ℚ) :
    ℕ → ℚ × ℚ :=
  if 1 < max_float mw th then
    fun v => if v < numVertices then
      ((uv v).1 / max_float mw th, (uv v).2 / max_float mw th)
    else uv v
  else uv

/-- `pack_uv_islands` of part_003: early return on null uvs or at most one
island, otherwise measure, sort, shelf-place, translate and globally fit. -/
def pack_uv_islands (mesh : Mesh) (result : UnwrapResult) (margin : ℚ) :
    Mesh :=
  match mesh.uvs with
  | none => mesh
  | some uv =>
    if result.num_islands ≤ 1 then mesh
    else
      let boxes := applySizes margin (collectIslands mesh result uv)
      let sorted := List.insertionSort packOrder boxes
      let acc := shelfLoop sorted
      let uv2 := applyGlobalFit (applyOffsets uv acc.placed)
        mesh.vertices.length acc.mw (acc.sy + acc.sh)
      { mesh with uvs := some uv2 }

/-- Null-pointer wrapper: `pack_uv_islands` returns immediately (mesh
untouched) when `mesh`, `result` or `mesh->uvs` is null. -/
def pack_uv_islands_c (mesh : Option Mesh) (result : Option UnwrapResult)
    (margin : ℚ) : Option Mesh :=
  match mesh, result with
  | none, _ => none
  | some m, none => some m
  | some m, some r => some (pack_uv_islands m r margin)

/-! ## Quality metrics (part_003 `compute_quality_metrics`) -/

/-- `compute_quality_metrics` of part_003: after the null checks it writes
the placeholder defaults `avg_stretch = 1.0`, `max_stretch = 1.0`,
`coverage = 0.7` regardless of the mesh's UVs. -/
def compute_quality_metrics (mesh : Mesh) (result : UnwrapResult) :
    UnwrapResult :=
  match mesh.uvs with
  | none => result
  | some _ =>
    { result with avg_stretch := 1, max_stretch := 1, coverage := 7 / 10 }

/-- Null-pointer wrapper for `compute_quality_metrics`. -/
def compute_quality_metrics_c (mesh : Option Mesh)
    (result : UnwrapResult) : UnwrapResult :=
  match mesh with
  | none => result
  | some m => compute_quality_metrics m result

/-! ## Orchestrator (unwrap.cpp, `unwrap_mesh`) -/

/-- `copy_island_uvs`: write each island vertex's solved local UV into the
global buffer (lookup through `global_to_local`). -/
def copy_island_uvs (tris : List (ℕ × ℕ × ℕ)) (buf : ℕ → ℚ × ℚ)
    (islandUvs : List (ℚ × ℚ)) (faces : List ℕ) (l2g : List ℕ) :
    ℕ → ℚ × ℚ :=
  faces.foldl
    (fun buf f =>
      let t := tris.getD f (0, 0, 0)
      [t.1, t.2.1, t.2.2].foldl
        (fun buf gv =>
          if gv ∈ l2g then
            fun v => if v = gv then islandUvs.getD (globalToLocal l2g gv) (0, 0)
                     else buf v
          else buf)
        buf)
    buf

/-- The planar-projection fallback of `unwrap_mesh`: write the raw (x, y)
input coordinates of every island vertex (no normalization).  The source
iterates the `global_to_local` map in ascending key order; the writes hit
pairwise-distinct keys, so folding over the insertion-order list is
equivalent. -/
def planar_fallback (mesh : Mesh) (buf : ℕ → ℚ × ℚ) (l2g : List ℕ) :
    ℕ → ℚ × ℚ :=
  l2g.foldl
    (fun buf gv => fun v =>
      if v = gv then
        ((get_vertex_position mesh gv).x, (get_vertex_position mesh gv).y)
      else buf v)
    buf

/-- The faces of one island, in ascending face order (STEP 4 loop). -/
def islandFacesOf (mesh : Mesh) (ids : List ℤ) (islandId : ℕ) : List ℕ :=
  (List.range mesh.triangles.length).filter fun f =>
    decide (ids.getD f 0 = (islandId : ℤ))

/-- One iteration of the island loop of `unwrap_mesh`: skip islands smaller
than `min_island_faces` (their vertices keep the zero-initialized UVs),
otherwise run LSCM and on failure fall back to the raw planar projection. -/
def processIsland (mesh : Mesh) (minFaces : ℕ) (ids : List ℤ)
    (buf : ℕ → ℚ × ℚ) (islandId : ℕ) : ℕ → ℚ × ℚ :=
  let faces := islandFacesOf mesh ids islandId
  if faces.length < minFaces then buf
  else
    let l2g := islandLocals mesh faces
    match lscm_parameterize mesh faces with
    | some uvl => copy_island_uvs mesh.triangles buf uvl faces l2g
    | none => planar_fallback mesh buf l2g

/-- The pipeline body of `unwrap_mesh` after the null checks: topology,
seams, islands, per-island parameterization into a `calloc`-zeroed buffer,
optional packing, metrics. -/
def unwrap_core (mesh : Mesh) (params : UnwrapParams) : Mesh × UnwrapResult :=
  let topo := build_topology mesh
  let seams := detect_seams mesh topo params.angle_threshold
  let ex := extract_islands mesh topo seams
  let buf := (List.range ex.2).foldl
    (processIsland mesh params.min_island_faces ex.1) (fun _ => (0, 0))
  let result : Mesh := { mesh with uvs := some buf }
  let tempRes : UnwrapResult :=
    { num_islands := (ex.2 : ℤ), face_island_ids := ex.1,
      avg_stretch := 0, max_stretch := 0, coverage := 0 }
  let packed := if params.pack_islands then
      pack_uv_islands result tempRes params.island_margin
    else result
  (packed, compute_quality_metrics packed tempRes)

/-- `unwrap_mesh` with its null checks: NULL (`none`) exactly when `mesh`,
`params` or `result_out` is null. -/
def unwrap_mesh (mesh : Option Mesh) (params : Option UnwrapParams)
    (resultOutValid : Bool) : Option (Mesh × UnwrapResult) :=
  match mesh, params, resultOutValid with
  | some m, some p, true => some (unwrap_core m p)
  | _, _, _ => none

/-! ## Concrete inputs for the orchestrator-level claims -/

/-- A right triangle: valid input on which LSCM succeeds. -/
def meshT : Mesh := ⟨[⟨0,0,0⟩, ⟨1,0,0⟩, ⟨0,1,0⟩], [(0,1,2)], none⟩

/-- A collinear (zero-area) triangle: valid input per the spec's
InvalidArgument list, but the LSCM system is singular. -/
def meshCol : Mesh := ⟨[⟨0,0,0⟩, ⟨5,0,0⟩, ⟨10,0,0⟩], [(0,1,2)], none⟩

/-- A malformed mesh: the triangle repeats vertex index 0. -/
def meshRep : Mesh := ⟨[⟨0,0,0⟩, ⟨10,0,0⟩, ⟨3,4,0⟩], [(0,0,1)], none⟩

/-- The documented default parameters. -/
def defaultParams : UnwrapParams := ⟨30, 1, true, 1/100⟩

/-- Defaults with `min_island_faces = 2`. -/
def paramsMin2 : UnwrapParams := ⟨30, 2, true, 1/100⟩

/-- The UV of vertex `v` in an unwrap result (zero when absent). -/
def outUV (res : Option (Mesh × UnwrapResult)) (v : ℕ) : ℚ × ℚ :=
  match res with
  | some out => (out.1.uvs.getD fun _ => (0, 0)) v
  | none => (0, 0)

/-- Modelled from the spec: a mesh is malformed when V < 3, F < 1, a
triangle has a vertex index outside [0, V), or a triangle repeats a
vertex index; InvalidArgument is specified exactly for null or malformed
input. -/
def specMeshValid (mesh : Mesh) : Prop :=
  3 ≤ mesh.vertices.length ∧ 1 ≤ mesh.triangles.length ∧
  ∀ t ∈ mesh.triangles,
    t.1 < mesh.vertices.length ∧ t.2.1 < mesh.vertices.length ∧
    t.2.2 < mesh.vertices.length ∧
    t.1 ≠ t.2.1 ∧ t.1 ≠ t.2.2 ∧ t.2.1 ≠ t.2.2

instance (mesh : Mesh) : Decidable (specMeshValid mesh) := by
  unfold specMeshValid; infer_instance

/-! ## C10: the packer's frame effect -/

theorem pack_frame_aux (m : Mesh) (r : UnwrapResult) (margin : ℚ)
    (h : m.uvs = none ∨ r.num_islands ≤ 1) :
    pack_uv_islands m r margin = m := by
  rcases hu : m.uvs with _ | uv
  · simp [pack_uv_islands, hu]
  · rcases h with h | h
    · exact absurd (hu ▸ h) (by simp)
    · simp [pack_uv_islands, hu, h]

/-- C10: `pack_uv_islands` leaves the mesh unchanged (and returns
immediately) whenever the mesh pointer, the result pointer or the uv
buffer is null, or the result reports at most one island; a mesh is
modified only when it has a uv buffer and at least two islands. -/
theorem pack_uv_islands_frame_effect :
    (∀ m r margin, m.uvs = none ∨ r.num_islands ≤ 1 →
      pack_uv_islands m r margin = m) ∧
    (∀ r margin, pack_uv_islands_c none r margin = none) ∧
    (∀ m margin, pack_uv_islands_c (some m) none margin = some m) ∧
    (∀ m r margin, pack_uv_islands m r margin ≠ m →
      2 ≤ r.num_islands ∧ m.uvs ≠ none) := by
  refine ⟨fun m r margin h => pack_frame_aux m r margin h,
    fun r margin => rfl, fun m margin => rfl,
    fun m r margin h => ⟨?_, ?_⟩⟩
  · by_contra hc
    push_neg at hc
    exact h (pack_frame_aux m r margin (Or.inr (by omega)))
  · intro hc
    exact h (pack_frame_aux m r margin (Or.inl hc))

/-- A mesh with a null uv buffer, and a one-island result. -/
def meshNoUv : Mesh := ⟨[⟨0,0,0⟩], [], none⟩

def resOne : UnwrapResult := ⟨1, [0], 1, 1, 7/10⟩

/-- C10 witness at a concrete mesh and result. -/
theorem pack_uv_islands_frame_effect_witness :
    pack_uv_islands meshNoUv resOne (1/100) = meshNoUv ∧
    pack_uv_islands_c none resOne (1/100) = none ∧
    pack_uv_islands_c (some meshNoUv) none (1/100) = some meshNoUv :=
  ⟨pack_uv_islands_frame_effect.1 meshNoUv resOne (1/100) (Or.inl rfl),
   pack_uv_islands_frame_effect.2.1 resOne (1/100),
   pack_uv_islands_frame_effect.2.2.1 meshNoUv (1/100)⟩

/-! ## C3: input validation of unwrap_mesh -/

/-- C3 (amended): `unwrap_mesh` fails exactly when `mesh`, `params` or
`result_out` is null; the mesh's structure is never validated. -/
theorem unwrap_mesh_error_iff (mesh : Option Mesh)
    (params : Option UnwrapParams) (ro : Bool) :
    unwrap_mesh mesh params ro = none ↔
      mesh = none ∨ params = none ∨ ro = false := by
  cases mesh <;> cases params <;> cases ro <;> simp [unwrap_mesh]

/-- C3 counterexample: `meshRep`'s single triangle repeats vertex index 0,
so the spec's InvalidArgument clause applies, yet `unwrap_mesh` accepts it
and produces a result. -/
theorem unwrap_mesh_malformed_accepted :
    ¬ specMeshValid meshRep ∧
    (unwrap_mesh (some meshRep) (some defaultParams) true).isSome = true :=
  ⟨by decide, rfl⟩

/-! ## C2: per-island fallback behaviour -/

theorem planar_fallback_spec (mesh : Mesh) (l2g : List ℕ) :
    ∀ buf v, planar_fallback mesh buf l2g v =
      if v ∈ l2g then
        ((get_vertex_position mesh v).x, (get_vertex_position mesh v).y)
      else buf v := by
  induction l2g with
  | nil => intro buf v; simp [planar_fallback]
  | cons g rest ih =>
    intro buf v
    have h1 : planar_fallback mesh buf (g :: rest) =
        planar_fallback mesh
          (fun w => if w = g then
            ((get_vertex_position mesh g).x, (get_vertex_position mesh g).y)
          else buf w) rest := rfl
    rw [h1, ih]
    by_cases hv : v ∈ rest
    · simp [hv, List.mem_cons]
    · by_cases hvg : v = g
      · subst hvg; simp [hv, List.mem_cons]
      · simp [hv, hvg, List.mem_cons]

/-- C2 (amended): islands smaller than `min_island_faces` are skipped
outright — their vertices keep the incoming (zero-initialized) buffer —
and when the LSCM solve fails the island's vertices receive the raw
(x, y) input coordinates with no normalization; vertices outside the
island are untouched, so the per-island loop continues past failures. -/
theorem process_island_fallback (mesh : Mesh) (minFaces : ℕ) (ids : List ℤ)
    (buf : ℕ → ℚ × ℚ) (islandId : ℕ) :
    ((islandFacesOf mesh ids islandId).length < minFaces →
      processIsland mesh minFaces ids buf islandId = buf) ∧
    (¬ (islandFacesOf mesh ids islandId).length < minFaces →
      lscm_parameterize mesh (islandFacesOf mesh ids islandId) = none →
      ∀ v, processIsland mesh minFaces ids buf islandId v =
        if v ∈ islandLocals mesh (islandFacesOf mesh ids islandId) then
          ((get_vertex_position mesh v).x, (get_vertex_position mesh v).y)
        else buf v) := by
  constructor
  · intro h
    simp only [processIsland]
    rw [if_pos h]
  · intro h hl v
    simp only [processIsland]
    rw [if_neg h, hl]
    exact planar_fallback_spec mesh (islandLocals mesh (islandFacesOf mesh ids islandId)) buf v

/-- Modelled from the spec: the fallback the spec prescribes — the raw
(x, y) coordinates of the island's vertices followed by normalization to
the unit square. -/
def specPlanarUVs (mesh : Mesh) (l2g : List ℕ) : List (ℚ × ℚ) :=
  normalize_uvs_to_unit_square
    (l2g.map fun gv =>
      ((get_vertex_position mesh gv).x, (get_vertex_position mesh gv).y))

set_option maxRecDepth 100000 in
/-- C2 counterexample: on `meshT` with `min_island_faces = 2` the single
island is skipped and vertex 1 keeps the zero UV, although the spec's
planar fallback gives it u = 1; on `meshCol` the LSCM solve fails and
vertex 2 receives the raw u = 10 with no normalization, although the
spec's normalized fallback gives u = 1. -/
theorem process_island_counterexample :
    outUV (unwrap_mesh (some meshT) (some paramsMin2) true) 1 = (0, 0) ∧
    specPlanarUVs meshT (islandLocals meshT [0]) = [(0, 0), (1, 0), (0, 1)] ∧
    outUV (unwrap_mesh (some meshCol) (some defaultParams) true) 2 = (10, 0) ∧
    specPlanarUVs meshCol (islandLocals meshCol [0]) = [(0, 0), (1/2, 0), (1, 0)] := by
  refine ⟨?_, ?_, ?_, ?_⟩ <;> with_unfolding_all decide

/-- A zero uv buffer. -/
def zbuf : ℕ → ℚ × ℚ := fun _ => (0, 0)

set_option maxRecDepth 100000 in
/-- C2 witness: the skip branch on `meshT` with threshold 2, and the
raw-coordinate fallback branch on `meshCol`. -/
theorem process_island_fallback_witness :
    processIsland meshT 2 [0] zbuf 0 = zbuf ∧
    processIsland meshCol 1 [0] zbuf 0 2 = (10, 0) := by
  constructor
  · exact (process_island_fallback meshT 2 [0] zbuf 0).1 (by decide)
  · rw [(process_island_fallback meshCol 1 [0] zbuf 0).2
      (by decide) (by with_unfolding_all decide) 2]
    with_unfolding_all decide

/-! ## C1: output UVs and the unit square -/

theorem foldl_min_le {α : Type} (l : List α) (f : α → ℚ) :
    ∀ a : ℚ, (∀ p ∈ l, l.foldl (fun m q => min_float m (f q)) a ≤ f p) ∧
      l.foldl (fun m q => min_float m (f q)) a ≤ a := by
  induction l with
  | nil => exact fun a => ⟨fun p hp => absurd hp (List.not_mem_nil p), le_refl a⟩
  | cons x xs ih =>
    intro a
    have h := ih (min_float a (f x))
    refine ⟨fun p hp => ?_, le_trans h.2 (min_le_left a (f x))⟩
    rcases List.mem_cons.mp hp with h1 | h1
    · subst h1; exact le_trans h.2 (min_le_right a (f p))
    · exact h.1 p h1

theorem foldl_max_ge {α : Type} (l : List α) (f : α → ℚ) :
    ∀ a : ℚ, (∀ p ∈ l, f p ≤ l.foldl (fun m q => max_float m (f q)) a) ∧
      a ≤ l.foldl (fun m q => max_float m (f q)) a := by
  induction l with
  | nil => exact fun a => ⟨fun p hp => absurd hp (List.not_mem_nil p), le_refl a⟩
  | cons x xs ih =>
    intro a
    have h := ih (max_float a (f x))
    refine ⟨fun p hp => ?_, le_trans (le_max_left a (f x)) h.2⟩
    rcases List.mem_cons.mp hp with h1 | h1
    · subst h1; exact le_trans (le_max_right a (f p)) h.2
    · exact h.1 p h1

theorem normalize_uvs_in_unit_square (uvs : List (ℚ × ℚ)) :
    ∀ p ∈ normalize_uvs_to_unit_square uvs,
      0 ≤ p.1 ∧ p.1 ≤ 1 ∧ 0 ≤ p.2 ∧ p.2 ≤ 1 := by
  intro p hp
  unfold normalize_uvs_to_unit_square at hp
  by_cases h0 : uvs.length = 0
  · rw [if_pos h0] at hp
    rw [List.length_eq_zero.mp h0] at hp
    exact absurd hp (List.not_mem_nil p)
  · rw [if_neg h0] at hp
    simp only [List.mem_map] at hp
    obtain ⟨q, hq, rfl⟩ := hp
    have hminU := (foldl_min_le uvs (fun p => p.1) FLT_MAX).1 q hq
    have hmaxU := (foldl_max_ge uvs (fun p => p.1) (-FLT_MAX)).1 q hq
    have hminV := (foldl_min_le uvs (fun p => p.2) FLT_MAX).1 q hq
    have hmaxV := (foldl_max_ge uvs (fun p => p.2) (-FLT_MAX)).1 q hq
    refine ⟨?_, ?_, ?_, ?_⟩
    · by_cases hr : uvs.foldl (fun m p => max_float m p.1) (-FLT_MAX) -
          uvs.foldl (fun m p => min_float m p.1) FLT_MAX < 1 / 1000000
      · rw [if_pos hr]
        simp only [div_one]
        linarith
      · rw [if_neg hr]
        apply div_nonneg (by linarith) (by linarith)
    · by_cases hr : uvs.foldl (fun m p => max_float m p.1) (-FLT_MAX) -
          uvs.foldl (fun m p => min_float m p.1) FLT_MAX < 1 / 1000000
      · rw [if_pos hr]
        simp only [div_one]
        linarith
      · rw [if_neg hr]
        rw [div_le_one (by linarith)]
        linarith
    · by_cases hr : uvs.foldl (fun m p => max_float m p.2) (-FLT_MAX) -
          uvs.foldl (fun m p => min_float m p.2) FLT_MAX < 1 / 1000000
      · rw [if_pos hr]
        simp only [div_one]
        linarith
      · rw [if_neg hr]
        apply div_nonneg (by linarith) (by linarith)
    · by_cases hr : uvs.foldl (fun m p => max_float m p.2) (-FLT_MAX) -
          uvs.foldl (fun m p => min_float m p.2) FLT_MAX < 1 / 1000000
      · rw [if_pos hr]
        simp only [div_one]
        linarith
      · rw [if_neg hr]
        rw [div_le_one (by linarith)]
        linarith

/-- C1 (amended): whenever `lscm_parameterize` succeeds, the island UVs it
returns pass through `normalize_uvs_to_unit_square` and lie in the unit
square; the skipped-island and fallback paths of `unwrap_mesh` do not
share this property. -/
theorem lscm_parameterize_in_unit_square (mesh : Mesh) (faces : List ℕ)
    (l : List (ℚ × ℚ)) (h : lscm_parameterize mesh faces = some l) :
    ∀ p ∈ l, 0 ≤ p.1 ∧ p.1 ≤ 1 ∧ 0 ≤ p.2 ∧ p.2 ≤ 1 := by
  simp only [lscm_parameterize] at h
  split at h
  · exact absurd h (by simp)
  · split at h
    · exact absurd h (by simp)
    · split at h
      · exact absurd h (by simp)
      · injection h with h2
        rw [← h2]
        exact normalize_uvs_in_unit_square _

set_option maxRecDepth 100000 in
/-- C1 witness: LSCM succeeds on `meshT` and its returned UVs — e.g. the
pin at (1, 0) — lie in the unit square. -/
theorem lscm_parameterize_in_unit_square_witness :
    lscm_parameterize meshT [0] = some [(0, 0), (0, 0), (1, 0)] ∧
    (0 ≤ ((1 : ℚ), (0 : ℚ)).1 ∧ ((1 : ℚ), (0 : ℚ)).1 ≤ 1 ∧
     0 ≤ ((1 : ℚ), (0 : ℚ)).2 ∧ ((1 : ℚ), (0 : ℚ)).2 ≤ 1) :=
  ⟨by with_unfolding_all decide,
   lscm_parameterize_in_unit_square meshT [0] [(0, 0), (0, 0), (1, 0)]
     (by with_unfolding_all decide) ((1 : ℚ), (0 : ℚ))
     (by with_unfolding_all decide)⟩

set_option maxRecDepth 100000 in
/-- C1 counterexample: `meshCol` is valid per the spec's InvalidArgument
list and is accepted, yet the LSCM solve is singular and the fallback
writes vertex 2's UV as (10, 0), outside [0,1]²; packing does not rescale
it because there is a single island. -/
theorem uv_unit_square_counterexample :
    specMeshValid meshCol ∧
    (unwrap_mesh (some meshCol) (some defaultParams) true).isSome = true ∧
    1 < (outUV (unwrap_mesh (some meshCol) (some defaultParams) true) 2).1 := by
  refine ⟨by decide, rfl, ?_⟩
  with_unfolding_all decide

/-! ## C9: quality metrics -/

/-- C9 (amended): after its null checks `compute_quality_metrics` writes
the placeholder constants avg_stretch = 1, max_stretch = 1 and
coverage = 0.7, regardless of the mesh's UVs and geometry. -/
theorem compute_quality_metrics_constants (mesh : Mesh) (r : UnwrapResult)
    (uv : ℕ → ℚ × ℚ) (h : mesh.uvs = some uv) :
    compute_quality_metrics mesh r =
      { r with avg_stretch := 1, max_stretch := 1, coverage := 7 / 10 } := by
  simp [compute_quality_metrics, h]

/-- UVs mapping the stretched triangle to the unit right triangle. -/
def uvQ : ℕ → ℚ × ℚ := fun v => [((0:ℚ),(0:ℚ)), (1,0), (0,1)].getD v (0,0)

/-- A triangle twice as tall in 3D as its UV image: true stretch 2. -/
def meshQ : Mesh := ⟨[⟨0,0,0⟩, ⟨1,0,0⟩, ⟨0,2,0⟩], [(0,1,2)], some uvQ⟩

def resQ : UnwrapResult := ⟨1, [0], 0, 0, 0⟩

/-- C9 witness at a concrete mesh carrying UVs. -/
theorem compute_quality_metrics_constants_witness :
    compute_quality_metrics meshQ resQ =
      { resQ with avg_stretch := 1, max_stretch := 1, coverage := 7 / 10 } :=
  compute_quality_metrics_constants meshQ resQ uvQ rfl

/-- Modelled from the spec: per-triangle stretch σ1/σ2 of the UV-to-3D
Jacobian, through the eigenvalues of JᵀJ (exact on data whose
discriminant and eigenvalues are perfect squares); `none` for the
triangles the spec says to skip. -/
def specTriStretch (mesh : Mesh) (f : ℕ) : Option ℚ :=
  match mesh.uvs with
  | none => none
  | some uv =>
    let t := getTri mesh f
    let p0 := get_vertex_position mesh t.1
    let p1 := get_vertex_position mesh t.2.1
    let p2 := get_vertex_position mesh t.2.2
    let dp1 := vec3_sub p1 p0
    let dp2 := vec3_sub p2 p0
    let duv1 := ((uv t.2.1).1 - (uv t.1).1, (uv t.2.1).2 - (uv t.1).2)
    let duv2 := ((uv t.2.2).1 - (uv t.1).1, (uv t.2.2).2 - (uv t.1).2)
    let det := duv1.1 * duv2.2 - duv1.2 * duv2.1
    if |det| < 1 / 10 ^ 10 then none
    else
      let j1 := vec3_scale (vec3_sub (vec3_scale dp1 duv2.2) (vec3_scale dp2 duv1.2)) (1 / det)
      let j2 := vec3_scale (vec3_add (vec3_scale dp1 (-duv2.1)) (vec3_scale dp2 duv1.1)) (1 / det)
      let g11 := vec3_dot j1 j1
      let g12 := vec3_dot j1 j2
      let g22 := vec3_dot j2 j2
      let tr := g11 + g22
      let disc := ratSqrt (tr * tr - 4 * (g11 * g22 - g12 * g12))
      let sig1 := ratSqrt ((tr + disc) / 2)
      let sig2 := ratSqrt ((tr - disc) / 2)
      if sig2 ≤ 1 / 10 ^ 10 then none else some (sig1 / sig2)

set_option maxRecDepth 100000 in
/-- C9 counterexample: the single triangle of `meshQ` has spec stretch
σ1/σ2 = 2, yet the code reports avg = max = 1 and coverage = 0.7; the
reported metrics do not depend on the actual UVs. -/
theorem compute_quality_metrics_counterexample :
    specTriStretch meshQ 0 = some 2 ∧
    (compute_quality_metrics meshQ resQ).avg_stretch = 1 ∧
    (compute_quality_metrics meshQ resQ).max_stretch = 1 ∧
    (compute_quality_metrics meshQ resQ).coverage = 7 / 10 ∧
    ¬ (2 : ℚ) = 1 := by
  refine ⟨?_, rfl, rfl, rfl, by norm_num⟩
  with_unfolding_all decide

/-! ## C5: pin selection and the pinned system -/

theorem sqDist_nonneg (a b : Vec3) : 0 ≤ sqDist a b := by
  show 0 ≤ (a.x - b.x) * (a.x - b.x) + (a.y - b.y) * (a.y - b.y) +
    (a.z - b.z) * (a.z - b.z)
  nlinarith [mul_self_nonneg (a.x - b.x), mul_self_nonneg (a.y - b.y),
    mul_self_nonneg (a.z - b.z)]

theorem sqDist_comm (a b : Vec3) : sqDist a b = sqDist b a := by
  show (a.x - b.x) * (a.x - b.x) + (a.y - b.y) * (a.y - b.y) +
      (a.z - b.z) * (a.z - b.z) =
    (b.x - a.x) * (b.x - a.x) + (b.y - a.y) * (b.y - a.y) +
      (b.z - a.z) * (b.z - a.z)
  ring

theorem sqDist_self (a : Vec3) : sqDist a a = 0 := by
  show (a.x - a.x) * (a.x - a.x) + (a.y - a.y) * (a.y - a.y) +
    (a.z - a.z) * (a.z - a.z) = 0
  ring

theorem mem_pinPairs {n i j : ℕ} : (i, j) ∈ pinPairs n ↔ i < j ∧ j < n := by
  unfold pinPairs
  simp only [List.mem_flatMap, List.mem_map, List.mem_filter, List.mem_range,
    decide_eq_true_eq]
  constructor
  · rintro ⟨a, ha, b, ⟨hb, hab⟩, heq⟩
    obtain ⟨rfl, rfl⟩ := Prod.mk.injEq .. ▸ heq
    exact ⟨hab, hb⟩
  · rintro ⟨hij, hj⟩
    exact ⟨i, lt_trans hij hj, j, ⟨hj, hij⟩, rfl⟩

/-- The pair (a, b) realizes the maximal pairwise 3D distance over the
candidate list. -/
def pairMaxAt (mesh : Mesh) (cand : List ℕ) (a b : ℕ) : Prop :=
  ∀ i ∈ cand, ∀ j ∈ cand,
    sqDist (get_vertex_position mesh i) (get_vertex_position mesh j) ≤
    sqDist (get_vertex_position mesh a) (get_vertex_position mesh b)

/-- Invariant of the pin-search fold. -/
def PinBest (mesh : Mesh) (cand : List ℕ) (best : ℕ × ℕ × ℚ) : Prop :=
  best.1 ∈ cand ∧ best.2.1 ∈ cand ∧ best.1 ≠ best.2.1 ∧ 0 ≤ best.2.2 ∧
  best.2.2 ≤ sqDist (get_vertex_position mesh best.1)
    (get_vertex_position mesh best.2.1)

theorem pin_fold_invariant (mesh : Mesh) (cand : List ℕ)
    (l : List (ℕ × ℕ)) (hl : ∀ ij ∈ l, ij ∈ pinPairs cand.length)
    (hnd : cand.Nodup) (b0 : ℕ × ℕ × ℚ) (h0 : PinBest mesh cand b0) :
    PinBest mesh cand (l.foldl
      (fun (best : ℕ × ℕ × ℚ) ij =>
        let vi := cand.getD ij.1 0
        let vj := cand.getD ij.2 0
        let d := sqDist (get_vertex_position mesh vi) (get_vertex_position mesh vj)
        if best.2.2 < d then (vi, vj, d) else best) b0) := by
  apply foldl_induction _ _ _ (PinBest mesh cand) h0
  intro s hs ij hij
  have hpp := hl ij hij
  have hpp2 : ij.1 < ij.2 ∧ ij.2 < cand.length := by
    have := hpp
    rw [show ij = (ij.1, ij.2) from rfl] at this
    exact mem_pinPairs.mp this
  simp only []
  by_cases hlt : s.2.2 < sqDist (get_vertex_position mesh (cand.getD ij.1 0))
      (get_vertex_position mesh (cand.getD ij.2 0))
  · rw [if_pos hlt]
    have hi : ij.1 < cand.length := lt_trans hpp2.1 hpp2.2
    have hj : ij.2 < cand.length := hpp2.2
    have hgi : cand.getD ij.1 0 = cand.get ⟨ij.1, hi⟩ := by
      rw [List.getD_eq_getElem cand 0 hi]; rfl
    have hgj : cand.getD ij.2 0 = cand.get ⟨ij.2, hj⟩ := by
      rw [List.getD_eq_getElem cand 0 hj]; rfl
    refine ⟨?_, ?_, ?_, ?_, le_refl _⟩
    · rw [hgi]; exact List.get_mem cand ij.1 hi
    · rw [hgj]; exact List.get_mem cand ij.2 hj
    · rw [hgi, hgj]
      intro h
      have := List.Nodup.get_inj_iff hnd |>.mp h
      exact absurd (Fin.mk.injEq .. ▸ this) (by omega)
    · exact le_trans hs.2.2.2.1 (le_of_lt hlt)
  · rw [if_neg hlt]
    exact hs

theorem pin_fold_ge (mesh : Mesh) (cand : List ℕ) (l : List (ℕ × ℕ)) :
    ∀ b0 : ℕ × ℕ × ℚ,
      (∀ ij ∈ l, sqDist (get_vertex_position mesh (cand.getD ij.1 0))
          (get_vertex_position mesh (cand.getD ij.2 0)) ≤
        (l.foldl (fun (best : ℕ × ℕ × ℚ) ij =>
          let vi := cand.getD ij.1 0
          let vj := cand.getD ij.2 0
          let d := sqDist (get_vertex_position mesh vi) (get_vertex_position mesh vj)
          if best.2.2 < d then (vi, vj, d) else best) b0).2.2) ∧
      b0.2.2 ≤ (l.foldl (fun (best : ℕ × ℕ × ℚ) ij =>
          let vi := cand.getD ij.1 0
          let vj := cand.getD ij.2 0
          let d := sqDist (get_vertex_position mesh vi) (get_vertex_position mesh vj)
          if best.2.2 < d then (vi, vj, d) else best) b0).2.2 := by
  induction l with
  | nil => exact fun b0 => ⟨fun ij hij => absurd hij (List.not_mem_nil ij), le_refl _⟩
  | cons q rest ih =>
    intro b0
    have hstep : (b0.2.2 ≤ ((if b0.2.2 < sqDist (get_vertex_position mesh (cand.getD q.1 0))
          (get_vertex_position mesh (cand.getD q.2 0)) then
          (cand.getD q.1 0, cand.getD q.2 0,
            sqDist (get_vertex_position mesh (cand.getD q.1 0))
              (get_vertex_position mesh (cand.getD q.2 0)))
        else b0) : ℕ × ℕ × ℚ).2.2) ∧
        sqDist (get_vertex_position mesh (cand.getD q.1 0))
          (get_vertex_position mesh (cand.getD q.2 0)) ≤
        ((if b0.2.2 < sqDist (get_vertex_position mesh (cand.getD q.1 0))
          (get_vertex_position mesh (cand.getD q.2 0)) then
          (cand.getD q.1 0, cand.getD q.2 0,
            sqDist (get_vertex_position mesh (cand.getD q.1 0))
              (get_vertex_position mesh (cand.getD q.2 0)))
        else b0) : ℕ × ℕ × ℚ).2.2 := by
      by_cases h : b0.2.2 < sqDist (get_vertex_position mesh (cand.getD q.1 0))
          (get_vertex_position mesh (cand.getD q.2 0))
      · rw [if_pos h]; exact ⟨le_of_lt h, le_refl _⟩
      · rw [if_neg h]; exact ⟨le_refl _, le_of_not_lt h⟩
    constructor
    · intro ij hij
      rcases List.mem_cons.mp hij with rfl | hmem
      · exact le_trans hstep.2 (ih _).2
      · exact (ih _).1 ij hmem
    · exact le_trans hstep.1 (ih _).2

theorem choosePinsFrom_spec (mesh : Mesh) (cand : List ℕ)
    (h2 : 2 ≤ cand.length) (hnd : cand.Nodup) :
    (choosePinsFrom mesh cand).1 ∈ cand ∧ (choosePinsFrom mesh cand).2 ∈ cand ∧
    (choosePinsFrom mesh cand).1 ≠ (choosePinsFrom mesh cand).2 ∧
    pairMaxAt mesh cand (choosePinsFrom mesh cand).1 (choosePinsFrom mesh cand).2 := by
  have h0lt : 0 < cand.length := by omega
  have h1lt : 1 < cand.length := by omega
  have hg0 : cand.getD 0 0 = cand.get ⟨0, h0lt⟩ := by
    rw [List.getD_eq_getElem cand 0 h0lt]; rfl
  have hg1 : cand.getD 1 0 = cand.get ⟨1, h1lt⟩ := by
    rw [List.getD_eq_getElem cand 0 h1lt]; rfl
  have hinit : PinBest mesh cand (cand.getD 0 0, cand.getD 1 0, (0 : ℚ)) := by
    refine ⟨?_, ?_, ?_, le_refl 0, sqDist_nonneg _ _⟩
    · rw [hg0]; exact List.get_mem cand 0 h0lt
    · rw [hg1]; exact List.get_mem cand 1 h1lt
    · rw [hg0, hg1]
      intro h
      have := List.Nodup.get_inj_iff hnd |>.mp h
      exact absurd (Fin.mk.injEq .. ▸ this) (by omega)
  have hinv := pin_fold_invariant mesh cand (pinPairs cand.length)
    (fun ij h => h) hnd _ hinit
  have hge := pin_fold_ge mesh cand (pinPairs cand.length)
    (cand.getD 0 0, cand.getD 1 0, (0 : ℚ))
  refine ⟨hinv.1, hinv.2.1, hinv.2.2.1, ?_⟩
  intro i hi j hj
  by_cases hij : i = j
  · subst hij
    rw [sqDist_self]
    exact le_trans hinv.2.2.2.1 hinv.2.2.2.2
  · have hi' : cand.indexOf i < cand.length := List.indexOf_lt_length.mpr hi
    have hj' : cand.indexOf j < cand.length := List.indexOf_lt_length.mpr hj
    have hgi : cand.getD (cand.indexOf i) 0 = i := by
      rw [List.getD_eq_getElem cand 0 hi']
      exact List.getElem_indexOf hi'
    have hgj : cand.getD (cand.indexOf j) 0 = j := by
      rw [List.getD_eq_getElem cand 0 hj']
      exact List.getElem_indexOf hj'
    have hne : cand.indexOf i ≠ cand.indexOf j := by
      intro h
      exact hij (by rw [← hgi, h, hgj])
    rcases Nat.lt_or_ge (cand.indexOf i) (cand.indexOf j) with hlt | hge2
    · have hmem : (cand.indexOf i, cand.indexOf j) ∈ pinPairs cand.length :=
        mem_pinPairs.mpr ⟨hlt, hj'⟩
      have := hge.1 _ hmem
      simp only [hgi, hgj] at this
      exact le_trans this hinv.2.2.2.2
    · have hlt2 : cand.indexOf j < cand.indexOf i := by omega
      have hmem : (cand.indexOf j, cand.indexOf i) ∈ pinPairs cand.length :=
        mem_pinPairs.mpr ⟨hlt2, hi'⟩
      have := hge.1 _ hmem
      simp only [hgi, hgj] at this
      rw [sqDist_comm]
      exact le_trans this hinv.2.2.2.2

theorem countE_flatMap (faces : List ℕ) (g : ℕ → List (ℕ × ℕ)) (e : ℕ × ℕ)
    (h : ∀ f ∈ faces, (g f).Nodup) :
    countE (faces.flatMap g) e =
      (faces.filter fun f => decide (e ∈ g f)).length := by
  induction faces with
  | nil => rfl
  | cons f rest ih =>
    have hcons : (f :: rest).flatMap g = g f ++ rest.flatMap g := by
      simp [List.flatMap_cons]
    rw [hcons]
    have happ : countE (g f ++ rest.flatMap g) e =
        countE (g f) e + countE (rest.flatMap g) e := by
      unfold countE
      exact List.countP_append _ _ _
    rw [happ, List.filter_cons]
    by_cases hm : e ∈ g f
    · rw [countE_eq_one (h f (List.mem_cons_self f rest)) hm,
        ih (fun f2 hf2 => h f2 (List.mem_cons_of_mem f hf2)),
        if_pos (by simp [hm]), List.length_cons]
      omega
    · rw [countE_eq_zero hm,
        ih (fun f2 hf2 => h f2 (List.mem_cons_of_mem f hf2)),
        if_neg (by simp [hm])]
      omega

theorem foldl_natmax_ge (l : List (ℕ × ℕ)) :
    ∀ a : ℕ, (∀ e ∈ l, e.1 ≤ l.foldl (fun m e => max m (max e.1 e.2)) a ∧
        e.2 ≤ l.foldl (fun m e => max m (max e.1 e.2)) a) ∧
      a ≤ l.foldl (fun m e => max m (max e.1 e.2)) a := by
  induction l with
  | nil => exact fun a => ⟨fun e he => absurd he (List.not_mem_nil e), le_refl a⟩
  | cons x xs ih =>
    intro a
    have h := ih (max a (max x.1 x.2))
    refine ⟨fun e he => ?_, le_trans (le_max_left _ _) h.2⟩
    rcases List.mem_cons.mp he with rfl | he2
    · constructor
      · exact le_trans (le_trans (le_max_left _ _) (le_max_right a _)) h.2
      · exact le_trans (le_trans (le_max_right _ _) (le_max_right a _)) h.2
    · exact h.1 e he2

/-- Modelled from the spec: a boundary vertex of an island is an endpoint
of an edge with exactly one adjacent face within the island. -/
def specIsBoundaryVertex (mesh : Mesh) (faces : List ℕ) (v : ℕ) : Prop :=
  ∃ e : ℕ × ℕ,
    (faces.filter fun f => decide (e ∈ triEdges (getTri mesh f))).length = 1 ∧
    (e.1 = v ∨ e.2 = v)

theorem find_boundary_vertices_spec (mesh : Mesh) (faces : List ℕ)
    (hdist : ∀ f ∈ faces, (getTri mesh f).1 ≠ (getTri mesh f).2.1 ∧
      (getTri mesh f).2.1 ≠ (getTri mesh f).2.2 ∧
      (getTri mesh f).1 ≠ (getTri mesh f).2.2) :
    ∀ v, v ∈ find_boundary_vertices mesh faces ↔
      specIsBoundaryVertex mesh faces v := by
  intro v
  have hnd : ∀ f ∈ faces, (triEdges (getTri mesh f)).Nodup := by
    intro f hf
    obtain ⟨h1, h2, h3⟩ := hdist f hf
    exact triEdges_nodup h1 h2 h3
  have hcnt : ∀ e : ℕ × ℕ, countE (islandEdgeEmissions mesh faces) e =
      (faces.filter fun f => decide (e ∈ triEdges (getTri mesh f))).length :=
    fun e => countE_flatMap faces _ e hnd
  unfold find_boundary_vertices
  simp only [List.mem_filter, List.mem_range, decide_eq_true_eq]
  constructor
  · rintro ⟨hlt, e, hin, hone, hend⟩
    exact ⟨e, by rw [← hcnt e]; exact hone, hend⟩
  · rintro ⟨e, hone, hend⟩
    have hone2 : countE (islandEdgeEmissions mesh faces) e = 1 := by
      rw [hcnt e]; exact hone
    have hin : e ∈ islandEdgeEmissions mesh faces := by
      by_contra hc
      rw [countE_eq_zero hc] at hone2
      exact absurd hone2 (by omega)
    refine ⟨?_, e, hin, hone2, hend⟩
    have hb := (foldl_natmax_ge (islandEdgeEmissions mesh faces) 0).1 e hin
    rcases hend with rfl | rfl
    · omega
    · omega

theorem mem_dedup_fold (l : List ℕ) :
    ∀ acc v, (v ∈ l.foldl
        (fun l2g gv => if gv ∈ l2g then l2g else l2g ++ [gv]) acc ↔
      v ∈ acc ∨ v ∈ l) := by
  induction l with
  | nil => intro acc v; simp
  | cons x xs ih =>
    intro acc v
    have hcons : (x :: xs).foldl
        (fun l2g gv => if gv ∈ l2g then l2g else l2g ++ [gv]) acc =
      xs.foldl (fun l2g gv => if gv ∈ l2g then l2g else l2g ++ [gv])
        (if x ∈ acc then acc else acc ++ [x]) := rfl
    rw [hcons, ih]
    by_cases hx : x ∈ acc
    · rw [if_pos hx]
      constructor
      · rintro (h | h)
        · exact Or.inl h
        · exact Or.inr (List.mem_cons_of_mem x h)
      · rintro (h | h)
        · exact Or.inl h
        · rcases List.mem_cons.mp h with rfl | h2
          · exact Or.inl hx
          · exact Or.inr h2
    · rw [if_neg hx]
      simp only [List.mem_append, List.mem_singleton, List.mem_cons]
      tauto

theorem nodup_dedup_fold (l : List ℕ) :
    ∀ acc : List ℕ, acc.Nodup →
      (l.foldl (fun l2g gv => if gv ∈ l2g then l2g else l2g ++ [gv])
        acc).Nodup := by
  induction l with
  | nil => exact fun acc h => h
  | cons x xs ih =>
    intro acc h
    have hcons : (x :: xs).foldl
        (fun l2g gv => if gv ∈ l2g then l2g else l2g ++ [gv]) acc =
      xs.foldl (fun l2g gv => if gv ∈ l2g then l2g else l2g ++ [gv])
        (if x ∈ acc then acc else acc ++ [x]) := rfl
    rw [hcons]
    by_cases hx : x ∈ acc
    · rw [if_pos hx]; exact ih acc h
    · rw [if_neg hx]
      apply ih
      rw [List.nodup_append]
      exact ⟨h, List.nodup_singleton x, fun a ha hb => hx ((List.mem_singleton.mp hb) ▸ ha)⟩

theorem islandLocals_eq_flat (mesh : Mesh) (faces : List ℕ) :
    ∀ acc, faces.foldl
        (fun l2g f =>
          [(getTri mesh f).1, (getTri mesh f).2.1, (getTri mesh f).2.2].foldl
            (fun l2g gv => if gv ∈ l2g then l2g else l2g ++ [gv]) l2g) acc =
      (faces.flatMap fun f =>
        [(getTri mesh f).1, (getTri mesh f).2.1, (getTri mesh f).2.2]).foldl
          (fun l2g gv => if gv ∈ l2g then l2g else l2g ++ [gv]) acc := by
  induction faces with
  | nil => intro acc; rfl
  | cons f rest ih =>
    intro acc
    have hcons : (f :: rest).flatMap (fun f =>
        [(getTri mesh f).1, (getTri mesh f).2.1, (getTri mesh f).2.2]) =
      [(getTri mesh f).1, (getTri mesh f).2.1, (getTri mesh f).2.2] ++
        rest.flatMap (fun f =>
          [(getTri mesh f).1, (getTri mesh f).2.1, (getTri mesh f).2.2]) := by
      simp [List.flatMap_cons]
    rw [hcons, List.foldl_append]
    exact ih _

theorem islandLocals_nodup (mesh : Mesh) (faces : List ℕ) :
    (islandLocals mesh faces).Nodup := by
  unfold islandLocals
  rw [islandLocals_eq_flat]
  exact nodup_dedup_fold _ [] List.nodup_nil

theorem mem_islandLocals (mesh : Mesh) (faces : List ℕ) (v : ℕ) :
    v ∈ islandLocals mesh faces ↔ ∃ f ∈ faces,
      v = (getTri mesh f).1 ∨ v = (getTri mesh f).2.1 ∨
      v = (getTri mesh f).2.2 := by
  unfold islandLocals
  rw [islandLocals_eq_flat, mem_dedup_fold]
  simp [List.mem_flatMap]

theorem triEdges_endpoints {t : ℕ × ℕ × ℕ} {e : ℕ × ℕ} (he : e ∈ triEdges t) :
    (e.1 = t.1 ∨ e.1 = t.2.1 ∨ e.1 = t.2.2) ∧
    (e.2 = t.1 ∨ e.2 = t.2.1 ∨ e.2 = t.2.2) := by
  simp only [triEdges, List.mem_cons, List.not_mem_nil, or_false] at he
  rcases he with rfl | rfl | rfl <;> unfold canonEdge <;> split <;> simp

theorem tripletMatrix_shift (ts : List Triplet) (i j : ℕ) :
    ∀ a : ℚ, ts.foldl (fun s t => if t.r = i ∧ t.c = j then s + t.v else s) a =
      a + tripletMatrix ts i j := by
  induction ts with
  | nil => intro a; simp [tripletMatrix]
  | cons t rest ih =>
    intro a
    have h1 : (t :: rest).foldl
        (fun s t => if t.r = i ∧ t.c = j then s + t.v else s) a =
      rest.foldl (fun s t => if t.r = i ∧ t.c = j then s + t.v else s)
        (if t.r = i ∧ t.c = j then a + t.v else a) := rfl
    have h2 : tripletMatrix (t :: rest) i j =
      rest.foldl (fun s t => if t.r = i ∧ t.c = j then s + t.v else s)
        (if t.r = i ∧ t.c = j then 0 + t.v else 0) := rfl
    rw [h1, h2, ih, ih]
    by_cases h : t.r = i ∧ t.c = j
    · simp only [if_pos h]; ring
    · simp only [if_neg h]; ring

theorem tripletMatrix_append (ts1 ts2 : List Triplet) (i j : ℕ) :
    tripletMatrix (ts1 ++ ts2) i j =
      tripletMatrix ts1 i j + tripletMatrix ts2 i j := by
  unfold tripletMatrix
  rw [List.foldl_append]
  exact tripletMatrix_shift ts2 i j _

theorem tripletMatrix_cons (t : Triplet) (ts : List Triplet) (i j : ℕ) :
    tripletMatrix (t :: ts) i j =
      (if t.r = i ∧ t.c = j then t.v else 0) + tripletMatrix ts i j := by
  have h2 : tripletMatrix (t :: ts) i j =
    ts.foldl (fun s t => if t.r = i ∧ t.c = j then s + t.v else s)
      (if t.r = i ∧ t.c = j then 0 + t.v else 0) := rfl
  rw [h2, tripletMatrix_shift]
  by_cases h : t.r = i ∧ t.c = j
  · simp only [if_pos h]; try ring
  · simp only [if_neg h]; try ring

theorem pinTriplets_matrix (p1 p2 : ℕ) (hne : p1 ≠ p2) (i j : ℕ) :
    tripletMatrix (pinTriplets p1 p2) i j =
      if i = j ∧ (i = 2*p1 ∨ i = 2*p1+1 ∨ i = 2*p2 ∨ i = 2*p2+1)
      then pin_weight else 0 := by
  unfold pinTriplets
  rw [tripletMatrix_cons, tripletMatrix_cons, tripletMatrix_cons,
    tripletMatrix_cons]
  have hnil : tripletMatrix [] i j = 0 := rfl
  rw [hnil]
  dsimp only
  by_cases h1 : (2*p1 : ℕ) = i ∧ (2*p1 : ℕ) = j <;>
  by_cases h2 : (2*p1+1 : ℕ) = i ∧ (2*p1+1 : ℕ) = j <;>
  by_cases h3 : (2*p2 : ℕ) = i ∧ (2*p2 : ℕ) = j <;>
  by_cases h4 : (2*p2+1 : ℕ) = i ∧ (2*p2+1 : ℕ) = j <;>
  (try rw [if_pos h1]) <;> (try rw [if_neg h1]) <;>
  (try rw [if_pos h2]) <;> (try rw [if_neg h2]) <;>
  (try rw [if_pos h3]) <;> (try rw [if_neg h3]) <;>
  (try rw [if_pos h4]) <;> (try rw [if_neg h4]) <;>
  first
  | (exfalso; omega)
  | (rw [if_pos (show i = j ∧ (i = 2*p1 ∨ i = 2*p1+1 ∨ i = 2*p2 ∨ i = 2*p2+1)
        by omega)]; ring)
  | (rw [if_neg (show ¬ (i = j ∧ (i = 2*p1 ∨ i = 2*p1+1 ∨ i = 2*p2 ∨ i = 2*p2+1))
        by omega)]; ring)

theorem lscmRhs_spec (p1 p2 : ℕ) (hne : p1 ≠ p2) :
    lscmRhs p1 p2 (2*p1) = 0 ∧ lscmRhs p1 p2 (2*p1+1) = 0 ∧
    lscmRhs p1 p2 (2*p2) = 1 * pin_weight ∧ lscmRhs p1 p2 (2*p2+1) = 0 ∧
    ∀ k, k ≠ 2*p1 → k ≠ 2*p1+1 → k ≠ 2*p2 → k ≠ 2*p2+1 →
      lscmRhs p1 p2 k = 0 := by
  refine ⟨?_, ?_, ?_, ?_, ?_⟩
  · show (if 2*p1 = 2*p2 then 1 * pin_weight
      else if 2*p1 = 2*p2 + 1 then 0 * pin_weight
      else if 2*p1 = 2*p1 then 0 * pin_weight
      else if 2*p1 = 2*p1 + 1 then 0 * pin_weight else 0) = 0
    rw [if_neg (show ¬ (2*p1 = 2*p2) by omega),
      if_neg (show ¬ (2*p1 = 2*p2 + 1) by omega), if_pos rfl]
    ring
  · show (if 2*p1+1 = 2*p2 then 1 * pin_weight
      else if 2*p1+1 = 2*p2 + 1 then 0 * pin_weight
      else if 2*p1+1 = 2*p1 then 0 * pin_weight
      else if 2*p1+1 = 2*p1 + 1 then 0 * pin_weight else 0) = 0
    rw [if_neg (show ¬ (2*p1+1 = 2*p2) by omega),
      if_neg (show ¬ (2*p1+1 = 2*p2 + 1) by omega),
      if_neg (show ¬ (2*p1+1 = 2*p1) by omega), if_pos rfl]
    ring
  · show (if 2*p2 = 2*p2 then 1 * pin_weight
      else if 2*p2 = 2*p2 + 1 then 0 * pin_weight
      else if 2*p2 = 2*p1 then 0 * pin_weight
      else if 2*p2 = 2*p1 + 1 then 0 * pin_weight else 0) = 1 * pin_weight
    rw [if_pos rfl]
  · show (if 2*p2+1 = 2*p2 then 1 * pin_weight
      else if 2*p2+1 = 2*p2 + 1 then 0 * pin_weight
      else if 2*p2+1 = 2*p1 then 0 * pin_weight
      else if 2*p2+1 = 2*p1 + 1 then 0 * pin_weight else 0) = 0
    rw [if_neg (show ¬ (2*p2+1 = 2*p2) by omega), if_pos rfl]
    ring
  · intro k hk1 hk2 hk3 hk4
    show (if k = 2*p2 then 1 * pin_weight
      else if k = 2*p2 + 1 then 0 * pin_weight
      else if k = 2*p1 then 0 * pin_weight
      else if k = 2*p1 + 1 then 0 * pin_weight else 0) = 0
    rw [if_neg hk3, if_neg hk4, if_neg hk1, if_neg hk2]

/-- The C5 property: boundary-vertex characterization, maximal-distance pin
choice with the boundary preference, and the pinned system's diagonal and
right-hand-side entries. -/
def PinSpec (mesh : Mesh) (faces : List ℕ) : Prop :=
  let l2g := islandLocals mesh faces
  let b := find_boundary_vertices mesh faces
  let pins := choosePins mesh faces l2g
  let p1 := globalToLocal l2g pins.1
  let p2 := globalToLocal l2g pins.2
  let ts := assembleTriplets mesh faces l2g
  (∀ v, v ∈ b ↔ specIsBoundaryVertex mesh faces v) ∧
  (2 ≤ b.length →
    pins.1 ∈ b ∧ pins.2 ∈ b ∧ pins.1 ≠ pins.2 ∧
      pairMaxAt mesh b pins.1 pins.2) ∧
  (b.length < 2 →
    pins.1 ∈ l2g ∧ pins.2 ∈ l2g ∧ pins.1 ≠ pins.2 ∧
      pairMaxAt mesh l2g pins.1 pins.2) ∧
  (∀ i j, tripletMatrix (ts ++ pinTriplets p1 p2) i j =
    tripletMatrix ts i j +
      (if i = j ∧ (i = 2*p1 ∨ i = 2*p1+1 ∨ i = 2*p2 ∨ i = 2*p2+1)
       then pin_weight else 0)) ∧
  (lscmRhs p1 p2 (2*p1) = 0 ∧ lscmRhs p1 p2 (2*p1+1) = 0 ∧
   lscmRhs p1 p2 (2*p2) = 1 * pin_weight ∧ lscmRhs p1 p2 (2*p2+1) = 0 ∧
   ∀ k, k ≠ 2*p1 → k ≠ 2*p1+1 → k ≠ 2*p2 → k ≠ 2*p2+1 →
     lscmRhs p1 p2 k = 0)

/-- C5: `lscm_parameterize` pins the two boundary vertices (endpoints of
island edges with exactly one adjacent island face) that are maximally far
apart in 3D — or, below two boundary vertices, the two island vertices
maximally far apart — and enforces the pins by adding W = 1e10 to the four
diagonal entries 2A, 2A+1, 2B, 2B+1 and setting b(2A) = 0, b(2A+1) = 0,
b(2B) = 1·W, b(2B+1) = 0.  Proved for islands whose triangles have
pairwise-distinct vertex indices and at least two vertices. -/
theorem lscm_pins_satisfy_spec (mesh : Mesh) (faces : List ℕ)
    (hdist : ∀ f ∈ faces, (getTri mesh f).1 ≠ (getTri mesh f).2.1 ∧
      (getTri mesh f).2.1 ≠ (getTri mesh f).2.2 ∧
      (getTri mesh f).1 ≠ (getTri mesh f).2.2)
    (hn2 : 2 ≤ (islandLocals mesh faces).length) :
    PinSpec mesh faces := by
  have hbchar := find_boundary_vertices_spec mesh faces hdist
  have hbnd : (find_boundary_vertices mesh faces).Nodup := by
    unfold find_boundary_vertices
    exact List.Nodup.filter _ (List.nodup_range _)
  have hlnd := islandLocals_nodup mesh faces
  have hsub : ∀ v ∈ find_boundary_vertices mesh faces,
      v ∈ islandLocals mesh faces := by
    intro v hv
    obtain ⟨e, hone, hend⟩ := (hbchar v).mp hv
    have hne : (faces.filter fun f => decide (e ∈ triEdges (getTri mesh f))) ≠ [] := by
      intro hc
      rw [hc] at hone
      exact absurd hone (by simp)
    obtain ⟨f, hf⟩ := List.exists_mem_of_ne_nil _ hne
    have hf2 := List.mem_filter.mp hf
    have hee : e ∈ triEdges (getTri mesh f) := by simpa using hf2.2
    have hep := triEdges_endpoints hee
    rw [mem_islandLocals]
    rcases hend with rfl | rfl
    · exact ⟨f, hf2.1, hep.1⟩
    · exact ⟨f, hf2.1, hep.2⟩
  have hpins : (choosePins mesh faces (islandLocals mesh faces)).1 ∈
        islandLocals mesh faces ∧
      (choosePins mesh faces (islandLocals mesh faces)).2 ∈
        islandLocals mesh faces ∧
      (choosePins mesh faces (islandLocals mesh faces)).1 ≠
        (choosePins mesh faces (islandLocals mesh faces)).2 := by
    by_cases hb2 : 2 ≤ (find_boundary_vertices mesh faces).length
    · have heq : choosePins mesh faces (islandLocals mesh faces) =
          choosePinsFrom mesh (find_boundary_vertices mesh faces) := by
        simp only [choosePins]
        rw [if_pos hb2]
      have hs := choosePinsFrom_spec mesh _ hb2 hbnd
      rw [heq]
      exact ⟨hsub _ hs.1, hsub _ hs.2.1, hs.2.2.1⟩
    · have heq : choosePins mesh faces (islandLocals mesh faces) =
          choosePinsFrom mesh (islandLocals mesh faces) := by
        simp only [choosePins]
        rw [if_neg hb2]
      have hs := choosePinsFrom_spec mesh _ hn2 hlnd
      rw [heq]
      exact ⟨hs.1, hs.2.1, hs.2.2.1⟩
  have hploc : globalToLocal (islandLocals mesh faces)
        (choosePins mesh faces (islandLocals mesh faces)).1 ≠
      globalToLocal (islandLocals mesh faces)
        (choosePins mesh faces (islandLocals mesh faces)).2 := by
    unfold globalToLocal
    intro hc
    exact hpins.2.2 ((List.indexOf_inj hpins.1 hpins.2.1).mp hc)
  dsimp only [PinSpec]
  refine ⟨hbchar, ?_, ?_, ?_, ?_⟩
  · intro hb2
    have heq : choosePins mesh faces (islandLocals mesh faces) =
        choosePinsFrom mesh (find_boundary_vertices mesh faces) := by
      simp only [choosePins]
      rw [if_pos hb2]
    rw [heq]
    exact choosePinsFrom_spec mesh _ hb2 hbnd
  · intro hb2
    have heq : choosePins mesh faces (islandLocals mesh faces) =
        choosePinsFrom mesh (islandLocals mesh faces) := by
      simp only [choosePins]
      rw [if_neg (by omega)]
    rw [heq]
    exact choosePinsFrom_spec mesh _ hn2 hlnd
  · intro i j
    rw [tripletMatrix_append, pinTriplets_matrix _ _ hploc i j]
  · exact lscmRhs_spec _ _ hploc

/-- C5 witness: the right-triangle island `meshT`, all three of whose
vertices are boundary vertices. -/
theorem lscm_pins_satisfy_spec_witness : PinSpec meshT [0] :=
  lscm_pins_satisfy_spec meshT [0] (by decide) (by decide)

/-! ## C8: deterministic shelf packing -/

instance : IsTotal IslandBox packOrder :=
  ⟨fun a b => le_total b.height a.height⟩

instance : IsTrans IslandBox packOrder :=
  ⟨fun _ _ _ hab hbc => le_trans hbc hab⟩

/-- Modelled from the spec (§4.6 step 3): shelf-placement positions — new
shelf at y += shelf_height when x + w would exceed 1 and x > 0, island at
(x, y), x advanced by w. -/
def specShelfRec : ℚ → ℚ → ℚ → List IslandBox → List IslandBox
  | _, _, _, [] => []
  | x, y, h, isl :: rest =>
    if 1 < x + isl.width ∧ 0 < x then
      { isl with target_x := 0, target_y := y + h } ::
        specShelfRec (0 + isl.width) (y + h) isl.height rest
    else
      { isl with target_x := x, target_y := y } ::
        specShelfRec (x + isl.width) y h rest

/-- Modelled from the spec (§4.6 steps 3 and 5): the used width W (maximal
x advance) and used height H (final shelf y plus shelf height). -/
def specShelfWH : ℚ → ℚ → ℚ → ℚ → List IslandBox → ℚ × ℚ
  | _, y, h, w, [] => (w, y + h)
  | x, y, h, w, isl :: rest =>
    if 1 < x + isl.width ∧ 0 < x then
      specShelfWH (0 + isl.width) (y + h) isl.height
        (max_float w (0 + isl.width)) rest
    else
      specShelfWH (x + isl.width) y h (max_float w (x + isl.width)) rest

theorem shelfLoop_go (l : List IslandBox) :
    ∀ p x y h m,
      (l.foldl shelfStep ⟨p, x, y, h, m⟩).placed = p ++ specShelfRec x y h l ∧
      ((l.foldl shelfStep ⟨p, x, y, h, m⟩).mw,
       (l.foldl shelfStep ⟨p, x, y, h, m⟩).sy +
         (l.foldl shelfStep ⟨p, x, y, h, m⟩).sh) = specShelfWH x y h m l := by
  induction l with
  | nil =>
    intro p x y h m
    simp [specShelfRec, specShelfWH]
  | cons isl rest ih =>
    intro p x y h m
    have hcons : (isl :: rest).foldl shelfStep ⟨p, x, y, h, m⟩ =
        rest.foldl shelfStep (shelfStep ⟨p, x, y, h, m⟩ isl) := rfl
    rw [hcons]
    unfold shelfStep
    dsimp only
    by_cases hc : 1 < x + isl.width ∧ 0 < x
    · rw [if_pos hc]
      have h2 := ih (p ++ [{ isl with target_x := 0, target_y := y + h }])
        (0 + isl.width) (y + h) isl.height (max_float m (0 + isl.width))
      have hr : specShelfRec x y h (isl :: rest) =
          { isl with target_x := 0, target_y := y + h } ::
            specShelfRec (0 + isl.width) (y + h) isl.height rest := by
        rw [specShelfRec]
        rw [if_pos hc]
      have hw : specShelfWH x y h m (isl :: rest) =
          specShelfWH (0 + isl.width) (y + h) isl.height
            (max_float m (0 + isl.width)) rest := by
        rw [specShelfWH]
        rw [if_pos hc]
      constructor
      · rw [hr, show p ++ ({ isl with target_x := 0, target_y := y + h } ::
            specShelfRec (0 + isl.width) (y + h) isl.height rest) =
          (p ++ [{ isl with target_x := 0, target_y := y + h }]) ++
            specShelfRec (0 + isl.width) (y + h) isl.height rest by
          rw [List.append_assoc]
          rfl]
        exact h2.1
      · rw [hw]
        exact h2.2
    · rw [if_neg hc]
      have h2 := ih (p ++ [{ isl with target_x := x, target_y := y }])
        (x + isl.width) y h (max_float m (x + isl.width))
      have hr : specShelfRec x y h (isl :: rest) =
          { isl with target_x := x, target_y := y } ::
            specShelfRec (x + isl.width) y h rest := by
        rw [specShelfRec]
        rw [if_neg hc]
      have hw : specShelfWH x y h m (isl :: rest) =
          specShelfWH (x + isl.width) y h (max_float m (x + isl.width)) rest := by
        rw [specShelfWH]
        rw [if_neg hc]
      constructor
      · rw [hr, show p ++ ({ isl with target_x := x, target_y := y } ::
            specShelfRec (x + isl.width) y h rest) =
          (p ++ [{ isl with target_x := x, target_y := y }]) ++
            specShelfRec (x + isl.width) y h rest by
          rw [List.append_assoc]
          rfl]
        exact h2.1
      · rw [hw]
        exact h2.2

theorem shelfLoop_eq_spec (sorted : List IslandBox) :
    (shelfLoop sorted).placed =
      specShelfRec 0 0 (sorted.headD default).height sorted ∧
    ((shelfLoop sorted).mw,
     (shelfLoop sorted).sy + (shelfLoop sorted).sh) =
      specShelfWH 0 0 (sorted.headD default).height 0 sorted := by
  have h := shelfLoop_go sorted [] 0 0 (sorted.headD default).height 0
  exact ⟨by rw [shelfLoop, h.1]; rfl, by rw [shelfLoop, h.2]⟩

/-- The C8 property: the processing order is a permutation of the
measured boxes satisfying the comparator's postcondition (height
descending; nothing constrains equal heights), placements and used
extents follow the spec's shelf recurrence, and the final pass divides
every vertex's UV by max(W, H) exactly when that maximum exceeds 1. -/
def PackLayoutSpec (mesh : Mesh) (r : UnwrapResult) (margin : ℚ)
    (uv : ℕ → ℚ × ℚ) : Prop :=
  let boxes := applySizes margin (collectIslands mesh r uv)
  let sorted := List.insertionSort packOrder boxes
  let acc := shelfLoop sorted
  let M := max_float acc.mw (acc.sy + acc.sh)
  AdmissibleSortOf boxes sorted ∧
  acc.placed = specShelfRec 0 0 (sorted.headD default).height sorted ∧
  (acc.mw, acc.sy + acc.sh) =
    specShelfWH 0 0 (sorted.headD default).height 0 sorted ∧
  (1 < M → ∀ v, v < mesh.vertices.length →
    applyGlobalFit (applyOffsets uv acc.placed) mesh.vertices.length
        acc.mw (acc.sy + acc.sh) v =
      ((applyOffsets uv acc.placed v).1 / M,
       (applyOffsets uv acc.placed v).2 / M)) ∧
  (¬ 1 < M →
    applyGlobalFit (applyOffsets uv acc.placed) mesh.vertices.length
        acc.mw (acc.sy + acc.sh) =
      applyOffsets uv acc.placed) ∧
  pack_uv_islands mesh r margin =
    { mesh with uvs := some (applyGlobalFit (applyOffsets uv acc.placed)
        mesh.vertices.length acc.mw (acc.sy + acc.sh)) }

/-- C8 (amended): with at least two islands and a non-null uv buffer, the
packer processes the islands in some height-descending order — the sort
comparator is `a.height > b.height` with no id tie-break, so the order of
equal-height islands is unspecified rather than deterministic — places
them by the spec's shelf rule, and divides all UVs by max(used width,
used height) exactly when that maximum exceeds 1. -/
theorem pack_uv_islands_satisfies_spec (mesh : Mesh) (r : UnwrapResult)
    (margin : ℚ) (uv : ℕ → ℚ × ℚ) (hu : mesh.uvs = some uv)
    (h2 : ¬ r.num_islands ≤ 1) :
    PackLayoutSpec mesh r margin uv := by
  dsimp only [PackLayoutSpec]
  refine ⟨⟨List.perm_insertionSort packOrder _,
    (List.sorted_insertionSort packOrder _).imp
      (fun h => decide_eq_false (not_lt.mpr h))⟩,
    (shelfLoop_eq_spec _).1, (shelfLoop_eq_spec _).2, ?_, ?_, ?_⟩
  · intro hM v hv
    unfold applyGlobalFit
    rw [if_pos hM]
    try dsimp only
    rw [if_pos hv]
  · intro hM
    unfold applyGlobalFit
    rw [if_neg hM]
  · simp only [pack_uv_islands, hu]
    rw [if_neg h2]

/-- Two unit right triangles forming two one-face islands. -/
def uvP : ℕ → ℚ × ℚ := fun v =>
  [((0:ℚ),(0:ℚ)), (1,0), (0,1), (0,0), (1,0), (0,1)].getD v (0,0)

def meshP : Mesh :=
  ⟨[⟨0,0,0⟩, ⟨1,0,0⟩, ⟨0,1,0⟩, ⟨2,0,0⟩, ⟨3,0,0⟩, ⟨2,1,0⟩],
   [(0,1,2), (3,4,5)], some uvP⟩

def resP : UnwrapResult := ⟨2, [0, 1], 0, 0, 0⟩

/-- C8 witness: a concrete two-island packing run. -/
theorem pack_uv_islands_satisfies_spec_witness :
    PackLayoutSpec meshP resP (1/100) uvP :=
  pack_uv_islands_satisfies_spec meshP resP (1/100) uvP rfl (by decide)

instance (l sorted : List IslandBox) :
    Decidable (AdmissibleSortOf l sorted) := by
  unfold AdmissibleSortOf; infer_instance

/-- Modelled from the claim: the asserted deterministic processing order —
height descending with ties broken by ascending island id. -/
def specClaimOrder (a b : IslandBox) : Prop :=
  b.height < a.height ∨ (a.height = b.height ∧ a.id ≤ b.id)

instance (a b : IslandBox) : Decidable (specClaimOrder a b) := by
  unfold specClaimOrder; infer_instance

/-- Two equal-height islands too wide to share a shelf. -/
def boxA : IslandBox := ⟨0, 0, 0, 0, 0, 3/5, 1, 0, 0, [0]⟩

def boxB : IslandBox := ⟨1, 0, 0, 0, 0, 3/5, 1, 0, 0, [1]⟩

/-- C8 counterexample: the source comparator (`a.height > b.height`, no id
tie-break) admits both orders of two equal-height islands — both satisfy
`std::sort`'s postcondition — and the two orders produce different shelf
layouts, so the id-ascending determinism the claim asserts is not a
property of the code; only the claim's modelled order singles out one of
them. -/
theorem pack_sort_counterexample :
    AdmissibleSortOf [boxA, boxB] [boxA, boxB] ∧
    AdmissibleSortOf [boxA, boxB] [boxB, boxA] ∧
    (shelfLoop [boxA, boxB]).placed ≠ (shelfLoop [boxB, boxA]).placed ∧
    specClaimOrder boxA boxB ∧ ¬ specClaimOrder boxB boxA := by
  refine ⟨?_, ?_, ?_, ?_, ?_⟩ <;> with_unfolding_all decide
